import Mathlib

/-!
# torch/csrc/jit/pickle.cpp

A shallow embedding of the save/load façade of `pickle.cpp`.

* `std::vector<char>` and `const char*` buffers are lists of bytes; a byte is a
  natural number (a `char` is one below 256, nothing here depends on the bound).
* `size_t` values are natural numbers.  The only subtraction of the file,
  `size - bytes_read`, is evaluated under the guard `bytes_read < size`, and the
  only addition, `bytes_read += len`, stays at or below `size`, so no operation
  wraps and no reduction modulo `2^64` is needed.
* A callback that captures mutable state by reference is a function on that state.
* A C++ exception is the `error` branch of `Except`.
-/

namespace Pickle

/-- One `char`. -/
abbrev Byte := Nat

/-- What one call of a byte source does: the count it returns, the bytes it has
copied into `buffer`, and the state it leaves in its captured variables. -/
structure ReadOut (ρ : Type) where
  count : Nat
  copied : List Byte
  next : ρ

/-- The lambda of `unpickle(const char* data, size_t size, ...)`, pickle.cpp lines 137-147.
`data` and `size` are captured, `bytes_read` is the captured counter, `len` the
requested length.  `std::memcpy(buffer, data + bytes_read, len)` copies the `len`
bytes that start at offset `bytes_read`. -/
def memReader (data : List Byte) (size : Nat) (bytes_read : Nat) (len : Nat) : ReadOut Nat :=
  if bytes_read ≥ size then
    { count := 0, copied := [], next := bytes_read }
  else
    let len := min (size - bytes_read) len
    let start := data.drop bytes_read
    { count := len, copied := start.take len, next := bytes_read + len }

/-- Successive calls of the byte source with the requested lengths `lens`, from the
counter value `bytes_read`: the outcome of every call, in call order. -/
def memReads (data : List Byte) (size : Nat) : Nat → List Nat → List (ReadOut Nat)
  | _, [] => []
  | bytes_read, len :: lens =>
    let r := memReader data size bytes_read len
    r :: memReads data size r.next lens

/-- The value of `bytes_read` after the calls `lens`. -/
def memReadsEnd (data : List Byte) (size : Nat) : Nat → List Nat → Nat
  | bytes_read, [] => bytes_read
  | bytes_read, len :: lens => memReadsEnd data size (memReader data size bytes_read len).next lens

/-- The bytes delivered by a run of calls, concatenated in call order. -/
def delivered (rs : List (ReadOut Nat)) : List Byte :=
  (rs.map (fun r => r.copied)).flatten

/-- The class `VectorReader`, pickle.cpp lines 79-99: it owns a copy of the vector. -/
structure VectorReader where
  data_ : List Byte

/-- The constructor `VectorReader(const std::vector<char>& data)`: `std::move` of a
const reference copies the vector. -/
def VectorReader.new (data : List Byte) : VectorReader :=
  { data_ := data }

/-- The method `size()`. -/
def VectorReader.size (r : VectorReader) : Nat :=
  r.data_.length

/-- What `VectorReader::read` does: the count it returns, the offsets from
`data_.data()` that `std::copy` dereferences, and the bytes of the vector found
at those offsets (an offset at or past `size()` is outside the vector and has no
content there). -/
structure VectorRead where
  count : Nat
  offsets : List Nat
  bytes : List Byte

/-- The method `read(pos, buf, n, what)`, lines 87-95:
`std::copy(data_.data() + pos, data_.data() + pos + n, buf); return n;`.
There is no comparison with `size()`. -/
def VectorReader.read (r : VectorReader) (pos : Nat) (n : Nat) : VectorRead :=
  { count := n
    offsets := List.range' pos n
    bytes := (List.range' pos n).filterMap (fun i => r.data_[i]?) }

/-! ## The value model (spec §3) -/

/-- Modelled from the spec: the error taxonomy of §7.  `atError` is the `c10::Error`
that `AT_ERROR(msg)` throws in pickle.cpp, the spec's UnsupportedOnThisBuild. -/
inductive Err where
  | typeUnsupported
  | streamCorrupt
  | protocolError
  | indexOutOfRange
  | classNotFound
  | archiveEntryMissing
  | atError (msg : String)
  deriving DecidableEq, Repr

/-- Modelled from the spec: a type-tag, a module and qualified-name pair (§3). -/
structure TypeTag where
  module : List Byte
  name : List Byte
  deriving DecidableEq, Repr

/-- Modelled from the spec: a tensor record (§3), reduced to its raw byte payload.
The layout descriptor is opaque to the subsystem and is taken as part of the
payload.  Lean values carry no object identity, so two references to one storage
are two equal records, and the storage identity of a record is the record. -/
structure Tensor where
  payload : List Byte
  deriving DecidableEq, Repr

/-- Modelled from the spec: `at::IValue`, the tagged union of §3.  A `double` is held
as its 64-bit pattern.  A term of this type is a tree: it has no shared
sub-objects and no cycles. -/
inductive IValue where
  | none
  | bool (b : Bool)
  | int (i : Int)
  | double (bits : Nat)
  | string (s : List Byte)
  | list (xs : List IValue)
  | dict (kvs : List (IValue × IValue))
  | object (tag : TypeTag) (fields : List IValue)
  | tensor (t : Tensor)

/-- Modelled from the spec: the result of a class resolver on a type-tag it knows
(§3, §6); the subsystem only consumes it. -/
structure TypeDescriptor where
  id : Nat

/-- The type `ClassResolver`, declared outside pickle.cpp: type-tag to descriptor or absent. -/
abbrev ClassResolver := TypeTag → Option TypeDescriptor

/-! ## The wire format (spec §6) -/

/-- Modelled from the spec: the opcodes §6 requires of the structural stream, with the
start marker of §4.1 and the header marker. -/
inductive Opcode where
  | proto
  | stop
  | mark
  | pushNone
  | pushTrue
  | pushFalse
  | pushInt
  | pushDouble
  | pushString
  | buildList
  | buildDict
  | buildObject
  | memoBind
  | backRef
  | tensorRef
  deriving DecidableEq, Repr

/-- Modelled from the spec: the byte of each opcode.  The spec fixes no byte values
(§9, open question); any assignment without repetition serves, and the proofs
use only that `Opcode.ofByte` inverts this function. -/
def Opcode.toByte : Opcode → Byte
  | .proto => 128
  | .stop => 46
  | .mark => 40
  | .pushNone => 78
  | .pushTrue => 136
  | .pushFalse => 137
  | .pushInt => 74
  | .pushDouble => 71
  | .pushString => 88
  | .buildList => 101
  | .buildDict => 117
  | .buildObject => 98
  | .memoBind => 113
  | .backRef => 104
  | .tensorRef => 81

/-- Modelled from the spec: the opcode of a byte, if it is one. -/
def Opcode.ofByte (b : Byte) : Option Opcode :=
  if b = 128 then some .proto
  else if b = 46 then some .stop
  else if b = 40 then some .mark
  else if b = 78 then some .pushNone
  else if b = 136 then some .pushTrue
  else if b = 137 then some .pushFalse
  else if b = 74 then some .pushInt
  else if b = 71 then some .pushDouble
  else if b = 88 then some .pushString
  else if b = 101 then some .buildList
  else if b = 117 then some .buildDict
  else if b = 98 then some .buildObject
  else if b = 113 then some .memoBind
  else if b = 104 then some .backRef
  else if b = 81 then some .tensorRef
  else none

/-- Modelled from the spec: the protocol id that follows the header marker. -/
def protocolId : Byte := 2

/-- The `w` low bytes of `n`, least significant first. -/
def leBytes : Nat → Nat → List Byte
  | 0, _ => []
  | w + 1, n => (n % 256) :: leBytes w (n / 256)

/-- The number a little-endian byte string stands for. -/
def leValue : List Byte → Nat
  | [] => 0
  | b :: bs => b + 256 * leValue bs

/-- Modelled from the spec: operands (integers, lengths, indices) are 8 bytes wide. -/
def wordBytes : Nat := 8

/-- The 64-bit two's complement pattern of an `int64_t`. -/
def intBits (i : Int) : Nat :=
  (i % 2 ^ 64).toNat

/-- The `int64_t` of a 64-bit pattern. -/
def bitsInt (n : Nat) : Int :=
  if n < 2 ^ 63 then (n : Int) else (n : Int) - 2 ^ 64

/-- A length-prefixed byte string. -/
def encString (s : List Byte) : List Byte :=
  leBytes wordBytes s.length ++ s

/-- A type-tag on the wire: module, then qualified name. -/
def encTag (t : TypeTag) : List Byte :=
  encString t.module ++ encString t.name

/-! ## The encoder (spec §4.1) -/

/-- Modelled from the spec: the lookup table of reduction strategies keyed by type-tag
(§9); an object type outside it has no serialization strategy (§4.1, Failure). -/
abbrev Registry := TypeTag → Bool

/-- Modelled from the spec: the class `Pickler`, which pickle.cpp constructs and drives
but does not define.  It owns the byte-sink callback `writer` (with `sink` the state
the callback has captured by reference), the caller's tensor table when one is
supplied, and its own tensor list, which `tensorData()` returns. -/
structure Pickler (σ : Type) where
  writer : σ → List Byte → σ
  sink : σ
  tensor_table : Option (List Tensor)
  tensor_data : List Tensor

/-- The constructor `Pickler(writer, tensor_table)`. -/
def Pickler.new {σ : Type} (writer : σ → List Byte → σ) (sink : σ)
    (tensor_table : Option (List Tensor)) : Pickler σ :=
  { writer := writer, sink := sink, tensor_table := tensor_table, tensor_data := [] }

/-- Modelled from the spec: all output flows through the caller's sink (§4.1): one
call of `writer` per record. -/
def Pickler.push {σ : Type} (p : Pickler σ) (bytes : List Byte) : Pickler σ :=
  { p with sink := p.writer p.sink bytes }

/-- Modelled from the spec: `protocol()` emits the fixed stream header. -/
def Pickler.protocol {σ : Type} (p : Pickler σ) : Pickler σ :=
  p.push [Opcode.proto.toByte, protocolId]

/-- Modelled from the spec: `stop()` emits the stream terminator. -/
def Pickler.stop {σ : Type} (p : Pickler σ) : Pickler σ :=
  p.push [Opcode.stop.toByte]

/-- The method `tensorData()`. -/
def Pickler.tensorData {σ : Type} (p : Pickler σ) : List Tensor :=
  p.tensor_data

/-- The index of the first record equal to `t`. -/
def findTensor (t : Tensor) : List Tensor → Option Nat
  | [] => none
  | x :: xs => if x = t then some 0 else (findTensor t xs).map (fun i => i + 1)

/-- Modelled from the spec: look up or append (§4.1): a storage already in the table
keeps its index, a new one is appended once. -/
def lookupOrAppend (table : List Tensor) (t : Tensor) : Nat × List Tensor :=
  match findTensor t table with
  | some i => (i, table)
  | none => (table.length, table ++ [t])

/-- Modelled from the spec: a tensor goes to the caller's table if one was supplied,
else to the pickler's own list; the stream gets a tensor-reference opcode that
carries the index and no payload byte. -/
def Pickler.pushTensor {σ : Type} (p : Pickler σ) (t : Tensor) : Pickler σ :=
  match p.tensor_table with
  | some table =>
    let r := lookupOrAppend table t
    ({ p with tensor_table := some r.2 }).push (Opcode.tensorRef.toByte :: leBytes wordBytes r.1)
  | none =>
    let r := lookupOrAppend p.tensor_data t
    ({ p with tensor_data := r.2 }).push (Opcode.tensorRef.toByte :: leBytes wordBytes r.1)

mutual
/-- Modelled from the spec: `pushIValue`, the depth-first traversal of §4.1.  A
composite is a start marker, its children, and an end marker; an object type
without a registered strategy fails with TypeUnsupported and the sink is not
rolled back.  The result is the pickler after the call and the outcome. -/
def Pickler.pushIValue {σ : Type} (reg : Registry) (p : Pickler σ) :
    IValue → Pickler σ × Except Err Unit
  | .none => (p.push [Opcode.pushNone.toByte], .ok ())
  | .bool b => (p.push [if b then Opcode.pushTrue.toByte else Opcode.pushFalse.toByte], .ok ())
  | .int i => (p.push (Opcode.pushInt.toByte :: leBytes wordBytes (intBits i)), .ok ())
  | .double bits => (p.push (Opcode.pushDouble.toByte :: leBytes wordBytes bits), .ok ())
  | .string s => (p.push (Opcode.pushString.toByte :: encString s), .ok ())
  | .list xs =>
    match Pickler.pushValues reg (p.push [Opcode.mark.toByte]) xs with
    | (p1, .ok _) => (p1.push [Opcode.buildList.toByte], .ok ())
    | (p1, .error e) => (p1, .error e)
  | .dict kvs =>
    match Pickler.pushItems reg (p.push [Opcode.mark.toByte]) kvs with
    | (p1, .ok _) => (p1.push [Opcode.buildDict.toByte], .ok ())
    | (p1, .error e) => (p1, .error e)
  | .object tag fields =>
    if reg tag then
      match Pickler.pushValues reg (p.push [Opcode.mark.toByte]) fields with
      | (p1, .ok _) => (p1.push (Opcode.buildObject.toByte :: encTag tag), .ok ())
      | (p1, .error e) => (p1, .error e)
    else (p, .error .typeUnsupported)
  | .tensor t => (p.pushTensor t, .ok ())
/-- The children of a sequence, in order. -/
def Pickler.pushValues {σ : Type} (reg : Registry) (p : Pickler σ) :
    List IValue → Pickler σ × Except Err Unit
  | [] => (p, .ok ())
  | x :: xs =>
    match Pickler.pushIValue reg p x with
    | (p1, .ok _) => Pickler.pushValues reg p1 xs
    | (p1, .error e) => (p1, .error e)
/-- The entries of a mapping, key then value, in order. -/
def Pickler.pushItems {σ : Type} (reg : Registry) (p : Pickler σ) :
    List (IValue × IValue) → Pickler σ × Except Err Unit
  | [] => (p, .ok ())
  | (k, v) :: kvs =>
    match Pickler.pushIValue reg p k with
    | (p1, .ok _) =>
      match Pickler.pushIValue reg p1 v with
      | (p2, .ok _) => Pickler.pushItems reg p2 kvs
      | (p2, .error e) => (p2, .error e)
    | (p1, .error e) => (p1, .error e)
end

/-! ## The decoder (spec §4.2) -/

/-- An entry of the interpreter stack: a start marker or a built value. -/
inductive Entry where
  | mark
  | val (v : IValue)

/-- Modelled from the spec: the class `Unpickler`, which pickle.cpp constructs and
drives but does not define: a byte-source callback `reader` (with `src` the state
it has captured by reference), an optional class resolver, a way to resolve a
tensor index, the interpreter stack (top first) and the memo table. -/
structure Unpickler (ρ : Type) where
  reader : ρ → Nat → ReadOut ρ
  src : ρ
  class_resolver : Option ClassResolver
  tensors : Nat → Except Err Tensor
  stack : List Entry
  memo : List IValue

/-- Modelled from the spec: tensor-reference resolution by indexing into the supplied
table; an index outside it is IndexOutOfRange (§4.2). -/
def tableTensors (tensor_table : Option (List Tensor)) (i : Nat) : Except Err Tensor :=
  match tensor_table with
  | none => .error .indexOutOfRange
  | some table =>
    match table[i]? with
    | some t => .ok t
    | none => .error .indexOutOfRange

/-- The constructor `Unpickler(reader, class_resolver, tensor_table)`. -/
def Unpickler.new {ρ : Type} (reader : ρ → Nat → ReadOut ρ) (src : ρ)
    (class_resolver : Option ClassResolver) (tensor_table : Option (List Tensor)) :
    Unpickler ρ :=
  { reader := reader, src := src, class_resolver := class_resolver,
    tensors := tableTensors tensor_table, stack := [], memo := [] }

/-- Modelled from the spec: pull `n` bytes from the byte source; a source that returns
fewer is exhausted mid-record, which is StreamCorrupt (§4.2). -/
def Unpickler.readBytes {ρ : Type} (u : Unpickler ρ) (n : Nat) :
    Except Err (List Byte × Unpickler ρ) :=
  let r := u.reader u.src n
  if r.count = n then .ok (r.copied, { u with src := r.next })
  else .error .streamCorrupt

/-- An 8-byte operand. -/
def Unpickler.readWord {ρ : Type} (u : Unpickler ρ) : Except Err (Nat × Unpickler ρ) :=
  match u.readBytes wordBytes with
  | .ok (bs, u1) => .ok (leValue bs, u1)
  | .error e => .error e

/-- A length-prefixed byte string. -/
def Unpickler.readString {ρ : Type} (u : Unpickler ρ) :
    Except Err (List Byte × Unpickler ρ) :=
  match u.readWord with
  | .ok (len, u1) => u1.readBytes len
  | .error e => .error e

/-- A type-tag: module, then qualified name. -/
def Unpickler.readTag {ρ : Type} (u : Unpickler ρ) : Except Err (TypeTag × Unpickler ρ) :=
  match u.readString with
  | .ok (m, u1) =>
    match u1.readString with
    | .ok (n, u2) => .ok ({ module := m, name := n }, u2)
    | .error e => .error e
  | .error e => .error e

/-- Push a built value. -/
def Unpickler.pushVal {ρ : Type} (u : Unpickler ρ) (v : IValue) : Unpickler ρ :=
  { u with stack := .val v :: u.stack }

/-- Push a start marker. -/
def Unpickler.pushMark {ρ : Type} (u : Unpickler ρ) : Unpickler ρ :=
  { u with stack := .mark :: u.stack }

/-- The values above the topmost start marker, oldest first, and the stack below it. -/
def popToMark : List Entry → Option (List IValue × List Entry)
  | [] => none
  | .mark :: rest => some ([], rest)
  | .val v :: rest =>
    match popToMark rest with
    | some (vs, below) => some (vs ++ [v], below)
    | none => none

/-- Keys and values, alternating, as entries. -/
def pairUp : List IValue → Option (List (IValue × IValue))
  | [] => some []
  | [_] => none
  | k :: v :: rest =>
    match pairUp rest with
    | some kvs => some ((k, v) :: kvs)
    | none => none

/-- What one opcode does: go on, stop with the root, or fail. -/
inductive Step (ρ : Type) where
  | next (u : Unpickler ρ)
  | done (v : IValue) (u : Unpickler ρ)
  | fail (e : Err)

/-- The resolver's answer on a type-tag; no resolver, no answer. -/
def resolveTag (class_resolver : Option ClassResolver) (tag : TypeTag) :
    Option TypeDescriptor :=
  match class_resolver with
  | some f => f tag
  | none => none

/-- Modelled from the spec: the type-tag is passed to the class resolver, if present (§4.2). -/
def Unpickler.resolve {ρ : Type} (u : Unpickler ρ) (tag : TypeTag) : Option TypeDescriptor :=
  resolveTag u.class_resolver tag

/-- Modelled from the spec: the opcode dispatch of §4.2 over the interpreter stack. -/
def Unpickler.exec {ρ : Type} (u : Unpickler ρ) : Opcode → Step ρ
  | .proto => .fail .protocolError
  | .stop =>
    match u.stack with
    | .val v :: _ => .done v u
    | _ => .fail .protocolError
  | .mark => .next u.pushMark
  | .pushNone => .next (u.pushVal .none)
  | .pushTrue => .next (u.pushVal (.bool true))
  | .pushFalse => .next (u.pushVal (.bool false))
  | .pushInt =>
    match u.readWord with
    | .ok (n, u1) => .next (u1.pushVal (.int (bitsInt n)))
    | .error e => .fail e
  | .pushDouble =>
    match u.readWord with
    | .ok (n, u1) => .next (u1.pushVal (.double n))
    | .error e => .fail e
  | .pushString =>
    match u.readString with
    | .ok (s, u1) => .next (u1.pushVal (.string s))
    | .error e => .fail e
  | .buildList =>
    match popToMark u.stack with
    | some (vs, below) => .next { u with stack := .val (.list vs) :: below }
    | none => .fail .protocolError
  | .buildDict =>
    match popToMark u.stack with
    | some (vs, below) =>
      match pairUp vs with
      | some kvs => .next { u with stack := .val (.dict kvs) :: below }
      | none => .fail .protocolError
    | none => .fail .protocolError
  | .buildObject =>
    match u.readTag with
    | .ok (tag, u1) =>
      match u1.resolve tag with
      | some _ =>
        match popToMark u1.stack with
        | some (vs, below) => .next { u1 with stack := .val (.object tag vs) :: below }
        | none => .fail .protocolError
      | none => .fail .classNotFound
    | .error e => .fail e
  | .memoBind =>
    match u.stack with
    | .val v :: _ => .next { u with memo := u.memo ++ [v] }
    | _ => .fail .protocolError
  | .backRef =>
    match u.readWord with
    | .ok (i, u1) =>
      match u1.memo[i]? with
      | some v => .next (u1.pushVal v)
      | none => .fail .indexOutOfRange
    | .error e => .fail e
  | .tensorRef =>
    match u.readWord with
    | .ok (i, u1) =>
      match u1.tensors i with
      | .ok t => .next (u1.pushVal (.tensor t))
      | .error e => .fail e
    | .error e => .fail e

/-- One opcode byte. -/
def Unpickler.readOpCode {ρ : Type} (u : Unpickler ρ) : Except Err (Opcode × Unpickler ρ) :=
  match u.readBytes 1 with
  | .ok ([b], u1) =>
    match Opcode.ofByte b with
    | some op => .ok (op, u1)
    | none => .error .protocolError
  | .ok (_, _) => .error .streamCorrupt
  | .error e => .error e

/-- One turn of the dispatch loop. -/
def Unpickler.step {ρ : Type} (u : Unpickler ρ) : Step ρ :=
  match u.readOpCode with
  | .ok (op, u1) => u1.exec op
  | .error e => .fail e

/-- The dispatch loop, for at most `fuel` opcodes; `none` when the fuel is spent
before the terminator or a failure. -/
def Unpickler.run {ρ : Type} : Nat → Unpickler ρ → Option (Except Err (IValue × Unpickler ρ))
  | 0, _ => none
  | fuel + 1, u =>
    match u.step with
    | .next u1 => Unpickler.run fuel u1
    | .done v u1 => some (.ok (v, u1))
    | .fail e => some (.error e)

/-- The stream header: the header marker and the protocol id. -/
def Unpickler.readHeader {ρ : Type} (u : Unpickler ρ) : Except Err (Unpickler ρ) :=
  match u.readOpCode with
  | .ok (.proto, u1) =>
    match u1.readBytes 1 with
    | .ok ([b], u2) => if b = protocolId then .ok u2 else .error .protocolError
    | .ok (_, _) => .error .streamCorrupt
    | .error e => .error e
  | .ok (_, _) => .error .protocolError
  | .error e => .error e

/-- Modelled from the spec: `parse_ivalue()`: the header, then the dispatch loop up to
the terminator; the root is the stack top at the terminator (§4.2). -/
def Unpickler.parse {ρ : Type} (fuel : Nat) (u : Unpickler ρ) :
    Option (Except Err (IValue × Unpickler ρ)) :=
  match u.readHeader with
  | .ok u1 => Unpickler.run fuel u1
  | .error e => some (.error e)

/-- The method `parse_ivalue()`: the root value alone. -/
def Unpickler.parse_ivalue {ρ : Type} (fuel : Nat) (u : Unpickler ρ) :
    Option (Except Err IValue) :=
  match u.parse fuel with
  | some (.ok (v, _)) => some (.ok v)
  | some (.error e) => some (.error e)
  | none => none

/-! ## pickle.cpp: tensor-table mode -/

/-- What a call of `pickle(writer, ivalue, tensor_table)` leaves behind: the state
captured by the sink, the caller's tensor table, and whether it returned or threw. -/
structure PickleOut (σ : Type) where
  sink : σ
  tensor_table : Option (List Tensor)
  result : Except Err Unit

/-- The function `pickle(writer, ivalue, tensor_table)`, pickle.cpp lines 11-19.  An
exception of `pushIValue` leaves the function at once. -/
def pickle_writer {σ : Type} (reg : Registry) (writer : σ → List Byte → σ) (sink : σ)
    (ivalue : IValue) (tensor_table : Option (List Tensor)) : PickleOut σ :=
  let pickler := Pickler.new writer sink tensor_table
  let pickler := pickler.protocol
  match pickler.pushIValue reg ivalue with
  | (pickler, .ok _) =>
    let pickler := pickler.stop
    { sink := pickler.sink, tensor_table := pickler.tensor_table, result := .ok () }
  | (pickler, .error e) =>
    { sink := pickler.sink, tensor_table := pickler.tensor_table, result := .error e }

/-- What a call of `pickle(ivalue, tensor_table)` leaves behind: the returned vector,
or the exception, and the caller's tensor table. -/
structure PickleVec where
  result : Except Err (List Byte)
  tensor_table : Option (List Tensor)

/-- The function `pickle(ivalue, tensor_table)`, pickle.cpp lines 21-34.  The lambda
appends each chunk to the local vector `data`. -/
def pickle (reg : Registry) (ivalue : IValue) (tensor_table : Option (List Tensor)) :
    PickleVec :=
  let data : List Byte := []
  let out := pickle_writer reg (fun (data : List Byte) bytes => data ++ bytes) data ivalue tensor_table
  match out.result with
  | .ok _ => { result := .ok out.sink, tensor_table := out.tensor_table }
  | .error e => { result := .error e, tensor_table := out.tensor_table }

/-- The function `unpickle(reader, class_resolver, tensor_table)`, pickle.cpp lines 121-128. -/
def unpickle_reader {ρ : Type} (fuel : Nat) (reader : ρ → Nat → ReadOut ρ) (src : ρ)
    (class_resolver : Option ClassResolver) (tensor_table : Option (List Tensor)) :
    Option (Except Err IValue) :=
  let unpickler := Unpickler.new reader src class_resolver tensor_table
  unpickler.parse_ivalue fuel

/-- The function `unpickle(data, size, class_resolver, tensor_table)`, pickle.cpp lines
130-150: the byte source is `memReader data size`, with `bytes_read = 0`. -/
def unpickle (fuel : Nat) (data : List Byte) (size : Nat)
    (class_resolver : Option ClassResolver) (tensor_table : Option (List Tensor)) :
    Option (Except Err IValue) :=
  let bytes_read := 0
  unpickle_reader fuel (memReader data size) bytes_read class_resolver tensor_table

/-! ## The container adapter (spec §4.3) -/

/-- The bytes of a string literal of the source. -/
def str (s : String) : List Byte :=
  s.toList.map Char.toNat

/-- The decimal digits of an index, as `std::to_string` writes them. -/
def decimal (i : Nat) : List Byte :=
  if i = 0 then [48] else (Nat.digits 10 i).reverse.map (fun d => d + 48)

/-- Modelled from the spec: the name of the entry of side-table index `i`:
`rootName/<index>` (§3, §4.3). -/
def entryName (archive_name : List Byte) (i : Nat) : List Byte :=
  archive_name ++ str "/" ++ decimal i

/-- Modelled from the spec: a container entry, a name and a byte payload (§3).  How
an entry lies inside the container is the container collaborator's concern and
no part of the spec; the plainest layout is taken: the name and the payload, each
behind its 8-byte length. -/
def frame (name : List Byte) (payload : List Byte) : List Byte :=
  encString name ++ encString payload

/-- Modelled from the spec: `caffe2::serialize::PyTorchStreamWriter`, the archive
writer over a push callback `writer_func` (with `out` the state the callback has
captured by reference).  `records` lists the entries written so far. -/
structure PyTorchStreamWriter (σ : Type) where
  writer_func : σ → List Byte → σ × Nat
  out : σ
  records : List (List Byte × List Byte)

/-- The constructor `PyTorchStreamWriter(writer_func)`. -/
def PyTorchStreamWriter.new {σ : Type} (writer_func : σ → List Byte → σ × Nat) (out : σ) :
    PyTorchStreamWriter σ :=
  { writer_func := writer_func, out := out, records := [] }

/-- Modelled from the spec: `writeRecord(name, data, size)` pushes one entry through
the callback. -/
def PyTorchStreamWriter.writeRecord {σ : Type} (w : PyTorchStreamWriter σ)
    (name : List Byte) (payload : List Byte) : PyTorchStreamWriter σ :=
  { w with out := (w.writer_func w.out (frame name payload)).1,
           records := w.records ++ [(name, payload)] }

/-- The tensor records from side-table index `i` on, each under `rootName/<index>`. -/
def writeTensors {σ : Type} (archive_name : List Byte) :
    Nat → List Tensor → PyTorchStreamWriter σ → PyTorchStreamWriter σ
  | _, [], out => out
  | i, t :: ts, out =>
    writeTensors archive_name (i + 1) ts (out.writeRecord (entryName archive_name i) t.payload)

/-- Modelled from the spec: `writeArchiveAndTensors(rootName, structBytes, structLen,
tensorRecords, writer)` writes the structural bytes under entry `rootName`, then
each tensor record's raw bytes under `rootName/<index>`, in side-table order (§4.3). -/
def writeArchiveAndTensors {σ : Type} (archive_name : List Byte) (data : List Byte)
    (size : Nat) (tensors : List Tensor) (out : PyTorchStreamWriter σ) :
    PyTorchStreamWriter σ :=
  writeTensors archive_name 0 tensors (out.writeRecord archive_name (data.take size))

/-- Modelled from the spec: `caffe2::serialize::PyTorchStreamReader`, the archive
reader over a read adapter. -/
structure PyTorchStreamReader where
  in_ : VectorReader

/-- The constructor `PyTorchStreamReader(std::unique_ptr<ReadAdapterInterface>)`. -/
def PyTorchStreamReader.new (adapter : VectorReader) : PyTorchStreamReader :=
  { in_ := adapter }

/-- Walk the entries from offset `pos` and return the payload of the first one
named `name`; every read is checked against `size()` beforehand, because
`VectorReader::read` reports `n` whatever it is asked. -/
def scanRecords (adapter : VectorReader) (name : List Byte) :
    Nat → Nat → Except Err (List Byte)
  | 0, _ => .error .archiveEntryMissing
  | fuel + 1, pos =>
    if adapter.size < pos + wordBytes then .error .archiveEntryMissing
    else
      let nlen := leValue (adapter.read pos wordBytes).bytes
      if adapter.size < pos + wordBytes + nlen + wordBytes then .error .archiveEntryMissing
      else
        let nm := (adapter.read (pos + wordBytes) nlen).bytes
        let plen := leValue (adapter.read (pos + wordBytes + nlen) wordBytes).bytes
        if adapter.size < pos + wordBytes + nlen + wordBytes + plen then
          .error .archiveEntryMissing
        else if nm = name then
          .ok (adapter.read (pos + wordBytes + nlen + wordBytes) plen).bytes
        else scanRecords adapter name fuel (pos + wordBytes + nlen + wordBytes + plen)

/-- Modelled from the spec: `getRecord(name)`; an absent entry is ArchiveEntryMissing
(§4.3).  An entry takes at least 16 bytes, so `size()` turns of the walk reach the
end of any archive. -/
def PyTorchStreamReader.getRecord (r : PyTorchStreamReader) (name : List Byte) :
    Except Err (List Byte) :=
  scanRecords r.in_ name r.in_.size 0

/-- Modelled from the spec: tensor-reference resolution in container mode pulls the
bytes of entry `rootName/<index>` through the reader (§4.3). -/
def recordTensors (reader : PyTorchStreamReader) (archive_name : List Byte) (i : Nat) :
    Except Err Tensor :=
  match reader.getRecord (entryName archive_name i) with
  | .ok bytes => .ok { payload := bytes }
  | .error e => .error e

/-- Modelled from the spec: `readArchiveAndTensors(rootName, classResolver, objLoader,
deviceMap, reader)` reads entry `rootName` as the structural stream and decodes it
with an unpickler that resolves tensor references from the entries
`rootName/<index>` (§4.3).  `objLoader` and `deviceMap` are `c10::nullopt` at the
one call site of pickle.cpp and the default of both is to do nothing; they are
left out. -/
def readArchiveAndTensors (fuel : Nat) (archive_name : List Byte)
    (class_resolver : Option ClassResolver) (reader : PyTorchStreamReader) :
    Option (Except Err IValue) :=
  match reader.getRecord archive_name with
  | .error e => some (.error e)
  | .ok data =>
    let unpickler : Unpickler Nat :=
      { reader := memReader data data.length, src := 0, class_resolver := class_resolver,
        tensors := recordTensors reader archive_name, stack := [], memo := [] }
    unpickler.parse_ivalue fuel

/-! ## pickle.cpp: container mode -/

/-- The message of `AT_ERROR` in `pickle_save`. -/
def saveUnsupported : String :=
  "pickle_save not supported on mobile (see https://github.com/pytorch/pytorch/pull/30108)"

/-- The message of `AT_ERROR` in `pickle_load`. -/
def loadUnsupported : String :=
  "pickle_load not supported on mobile (see https://github.com/pytorch/pytorch/pull/30108)"

/-- The second lambda of `pickle_save`, lines 56-60: it appends the bytes to
`container_data` and returns `len`.  Its state carries, next to
`container_data`, a log of the chunks it has been passed. -/
def containerSink (st : List Byte × List (List Byte)) (bytes : List Byte) :
    (List Byte × List (List Byte)) × Nat :=
  ((st.1 ++ bytes, st.2 ++ [bytes]), bytes.length)

/-- What a call of `pickle_save` has done when it is left: the local vector
`pickle_data`, the tensors of `pickler.tensorData()`, the entries handed to the
archive writer, the chunks the archive writer passed to its callback (in call
order), and the returned vector or the exception.  A list is empty when the
object it belongs to was never constructed. -/
structure SaveRun where
  pickle_data : List Byte
  tensors : List Tensor
  records : List (List Byte × List Byte)
  pushed : List (List Byte)
  result : Except Err (List Byte)

/-- The function `pickle_save(ivalue)`, pickle.cpp lines 38-76, with `C10_MOBILE` the
build flag of the `#ifndef`.  Both lambdas append to their local vector. -/
def pickle_save_run (C10_MOBILE : Bool) (reg : Registry) (ivalue : IValue) : SaveRun :=
  if C10_MOBILE = false then
    let pickle_data : List Byte := []
    let pickler := Pickler.new (fun (pickle_data : List Byte) buf => pickle_data ++ buf)
      pickle_data none
    let pickler := pickler.protocol
    match pickler.pushIValue reg ivalue with
    | (pickler, .ok _) =>
      let pickler := pickler.stop
      let pickle_data := pickler.sink
      let container_data : List Byte := []
      let writer := PyTorchStreamWriter.new containerSink (container_data, [])
      let writer := writeArchiveAndTensors (str "data") pickle_data pickle_data.length
        pickler.tensorData writer
      { pickle_data := pickle_data, tensors := pickler.tensorData,
        records := writer.records, pushed := writer.out.2, result := .ok writer.out.1 }
    | (pickler, .error e) =>
      { pickle_data := pickler.sink, tensors := pickler.tensorData, records := [],
        pushed := [], result := .error e }
  else
    { pickle_data := [], tensors := [], records := [], pushed := [],
      result := .error (.atError saveUnsupported) }

/-- The function `pickle_save(ivalue)`: the returned vector, or the exception. -/
def pickle_save (C10_MOBILE : Bool) (reg : Registry) (ivalue : IValue) :
    Except Err (List Byte) :=
  (pickle_save_run C10_MOBILE reg ivalue).result

/-- The function `pickle_load(data)`, pickle.cpp lines 102-119. -/
def pickle_load (C10_MOBILE : Bool) (fuel : Nat) (data : List Byte) :
    Option (Except Err IValue) :=
  if C10_MOBILE = false then
    let reader := PyTorchStreamReader.new (VectorReader.new data)
    readArchiveAndTensors fuel (str "data") none reader
  else
    some (.error (.atError loadUnsupported))

/-! ## Predicates on values and auxiliary definitions for the statements -/

mutual
/-- Every object type of the value has a registered reduction strategy. -/
def IValue.supported (reg : Registry) : IValue → Bool
  | .list xs => supportedAll reg xs
  | .dict kvs => supportedItems reg kvs
  | .object tag fields => reg tag && supportedAll reg fields
  | _ => true
/-- `IValue.supported` on every element. -/
def supportedAll (reg : Registry) : List IValue → Bool
  | [] => true
  | x :: xs => x.supported reg && supportedAll reg xs
/-- `IValue.supported` on every key and value. -/
def supportedItems (reg : Registry) : List (IValue × IValue) → Bool
  | [] => true
  | (k, v) :: kvs => k.supported reg && v.supported reg && supportedItems reg kvs
end

mutual
/-- The value fits the C++ types that hold it: an `int64_t`, the 64 bits of a
`double`, and strings whose length is a `size_t`. -/
def IValue.fits : IValue → Bool
  | .int i => decide (-(2 ^ 63) ≤ i) && decide (i < 2 ^ 63)
  | .double bits => decide (bits < 2 ^ 64)
  | .string s => decide (s.length < 2 ^ 64)
  | .list xs => fitsAll xs
  | .dict kvs => fitsItems kvs
  | .object tag fields =>
    decide (tag.module.length < 2 ^ 64) && decide (tag.name.length < 2 ^ 64) && fitsAll fields
  | _ => true
/-- `IValue.fits` on every element. -/
def fitsAll : List IValue → Bool
  | [] => true
  | x :: xs => x.fits && fitsAll xs
/-- `IValue.fits` on every key and value. -/
def fitsItems : List (IValue × IValue) → Bool
  | [] => true
  | (k, v) :: kvs => k.fits && v.fits && fitsItems kvs
end

mutual
/-- The class resolver resolves the type-tag of every object of the value. -/
def IValue.resolved (cr : Option ClassResolver) : IValue → Bool
  | .list xs => resolvedAll cr xs
  | .dict kvs => resolvedItems cr kvs
  | .object tag fields => (resolveTag cr tag).isSome && resolvedAll cr fields
  | _ => true
/-- `IValue.resolved` on every element. -/
def resolvedAll (cr : Option ClassResolver) : List IValue → Bool
  | [] => true
  | x :: xs => x.resolved cr && resolvedAll cr xs
/-- `IValue.resolved` on every key and value. -/
def resolvedItems (cr : Option ClassResolver) : List (IValue × IValue) → Bool
  | [] => true
  | (k, v) :: kvs => k.resolved cr && v.resolved cr && resolvedItems cr kvs
end

mutual
/-- The value holds no typed object. -/
def IValue.objectFree : IValue → Bool
  | .list xs => objectFreeAll xs
  | .dict kvs => objectFreeItems kvs
  | .object _ _ => false
  | _ => true
/-- `IValue.objectFree` on every element. -/
def objectFreeAll : List IValue → Bool
  | [] => true
  | x :: xs => x.objectFree && objectFreeAll xs
/-- `IValue.objectFree` on every key and value. -/
def objectFreeItems : List (IValue × IValue) → Bool
  | [] => true
  | (k, v) :: kvs => k.objectFree && v.objectFree && objectFreeItems kvs
end

/-- Keys and values of a mapping, alternating. -/
def flatItems : List (IValue × IValue) → List IValue
  | [] => []
  | (k, v) :: kvs => k :: v :: flatItems kvs

/-- The side-table the pickler fills: the caller's table if one was supplied, else
its own list. -/
def Pickler.table {σ : Type} (p : Pickler σ) : List Tensor :=
  match p.tensor_table with
  | some table => table
  | none => p.tensor_data

/-- The sink that appends each chunk to a byte vector: the lambda of
`pickle(ivalue, tensor_table)` and the first lambda of `pickle_save`. -/
def appendSink : List Byte → List Byte → List Byte :=
  fun data bytes => data ++ bytes

/-- A sink that keeps every chunk it is passed, in call order. -/
def logSink : List (List Byte) → List Byte → List (List Byte) :=
  fun log bytes => log ++ [bytes]

/-- The tensor resolution `tensors` returns the record of every index of `table`. -/
def Agrees (tensors : Nat → Except Err Tensor) (table : List Tensor) : Prop :=
  ∀ i t, table[i]? = some t → tensors i = .ok t

/-- The unpickler after its in-memory source has delivered `n` more bytes. -/
def Unpickler.adv (u : Unpickler Nat) (n : Nat) : Unpickler Nat :=
  { u with src := u.src + n }

/-- The unpickler with the values `vs` pushed, in order. -/
def Unpickler.pushVals {ρ : Type} (u : Unpickler ρ) (vs : List IValue) : Unpickler ρ :=
  { u with stack := (vs.reverse.map Entry.val) ++ u.stack }

/-- The unpickler reading the same buffer `data`, with `size` as its length. -/
def Unpickler.withSize (u : Unpickler Nat) (data : List Byte) (size : Nat) : Unpickler Nat :=
  { u with reader := memReader data size }

/-- Decoding the bytes `bs` takes `n` turns of the loop and pushes the values `vs`,
for every unpickler on the in-memory source whose tensor resolution agrees with
`table` and whose class resolver passes `ok`. -/
def DecodesTo (bs : List Byte) (n : Nat) (table : List Tensor)
    (ok : Option ClassResolver → Bool) (vs : List IValue) : Prop :=
  ∀ (u : Unpickler Nat) (data : List Byte) (size : Nat) (rest : List Byte) (fuel : Nat),
    u.reader = memReader data size → data.drop u.src = bs ++ rest →
    u.src + bs.length ≤ size → Agrees u.tensors table → table.length ≤ 2 ^ 64 →
    ok u.class_resolver = true →
    Unpickler.run (fuel + n) u = Unpickler.run fuel ((u.adv bs.length).pushVals vs)

/-- What a successful call of a push method has done to a pickler with the
appending sink: the sink has grown by bytes that decode to `vs`, the side-table
has grown at its end. -/
def Emits (p p' : Pickler (List Byte)) (ok : Option ClassResolver → Bool)
    (vs : List IValue) : Prop :=
  p'.writer = appendSink ∧ p'.tensor_table.isSome = p.tensor_table.isSome ∧
  (∃ ext, p'.table = p.table ++ ext) ∧
  ∃ bs n, p'.sink = p.sink ++ bs ∧ n ≤ bs.length ∧ DecodesTo bs n p'.table ok vs

/-- The outcome of a read, with the unpickler moved to the buffer length `size`. -/
def resized {α : Type} (data : List Byte) (size : Nat) :
    Except Err (α × Unpickler Nat) → Except Err (α × Unpickler Nat)
  | .ok (a, u) => .ok (a, u.withSize data size)
  | .error e => .error e

/-- The outcome of a turn of the loop, with the unpickler moved to the buffer length `size`. -/
def Step.resized (data : List Byte) (size : Nat) : Step Nat → Step Nat
  | .next u => .next (u.withSize data size)
  | .done v u => .done v (u.withSize data size)
  | .fail e => .fail e

/-- A pickler `p` with any sink has been driven like the pickler `q` with the
logging sink: the state of the sink of `p` is its start state `s0` after the
chunks `q` has logged, and the side-tables are the same. -/
def Mirrors {σ : Type} (s0 : σ) (p : Pickler σ) (q : Pickler (List (List Byte))) : Prop :=
  q.writer = logSink ∧ p.sink = q.sink.foldl p.writer s0 ∧
  p.tensor_table = q.tensor_table ∧ p.tensor_data = q.tensor_data

/-- The container bytes of a list of entries, one frame after the other. -/
def framesOf (entries : List (List Byte × List Byte)) : List Byte :=
  (entries.map (fun e => frame e.1 e.2)).flatten

/-- A registry that has a strategy for every object type of module `[1]`. -/
def sampleRegistry : Registry :=
  fun tag => decide (tag.module = [1])

/-- A class resolver that knows the object types of module `[1]`. -/
def sampleResolver : ClassResolver :=
  fun tag => if tag.module = [1] then some { id := 0 } else none

/-- A value with every kind of node: `{"a": 1, "b": [1, -2, tensor, object]}`. -/
def sampleValue : IValue :=
  .dict [(.string [97], .int 1),
    (.string [98], .list [.int 1, .int (-2), .tensor { payload := [9, 9] },
      .object { module := [1], name := [5] } [.none, .bool true, .double 7]])]

/-- A sequence whose second element has an object type without strategy. -/
def sampleUnsupported : IValue :=
  .list [.tensor { payload := [1] }, .object { module := [2], name := [] } []]

theorem memReader_of_le (data : List Byte) (size k len : Nat) (h : size ≤ k) :
    memReader data size k len = { count := 0, copied := [], next := k } := by
  simp [memReader, h]

theorem memReader_of_lt (data : List Byte) (size k len : Nat) (h : k < size) :
    memReader data size k len =
      { count := min (size - k) len, copied := (data.drop k).take (min (size - k) len),
        next := k + min (size - k) len } := by
  have : ¬ size ≤ k := by omega
  simp [memReader, this]

theorem memReader_count (data : List Byte) (size k len : Nat) (h : k ≤ size) :
    (memReader data size k len).count = min len (size - k) := by
  by_cases hk : size ≤ k
  · rw [memReader_of_le _ _ _ _ hk]
    simp
    omega
  · rw [memReader_of_lt _ _ _ _ (by omega)]
    simp [Nat.min_comm]

theorem memReader_copied (data : List Byte) (size k len : Nat) :
    (memReader data size k len).copied = (data.drop k).take (min len (size - k)) := by
  by_cases hk : size ≤ k
  · rw [memReader_of_le _ _ _ _ hk]
    have : size - k = 0 := by omega
    simp [this]
  · rw [memReader_of_lt _ _ _ _ (by omega)]
    simp [Nat.min_comm]

theorem memReader_next (data : List Byte) (size k len : Nat) :
    (memReader data size k len).next = k + min len (size - k) := by
  by_cases hk : size ≤ k
  · rw [memReader_of_le _ _ _ _ hk]
    have : size - k = 0 := by omega
    simp [this]
  · rw [memReader_of_lt _ _ _ _ (by omega)]
    simp [Nat.min_comm]

theorem memReader_next_le (data : List Byte) (size k len : Nat) (h : k ≤ size) :
    (memReader data size k len).next ≤ size := by
  rw [memReader_next]
  omega

theorem memReads_of_le (data : List Byte) (size : Nat) (lens : List Nat) :
    ∀ k, size ≤ k →
      memReads data size k lens = lens.map (fun _ => { count := 0, copied := [], next := k }) := by
  induction lens with
  | nil => intro k _; rfl
  | cons len lens ih =>
    intro k hk
    simp only [memReads, List.map_cons]
    rw [memReader_of_le _ _ _ _ hk]
    simp only [ih k hk]

theorem memReadsEnd_le (data : List Byte) (size : Nat) (lens : List Nat) :
    ∀ k, k ≤ size → memReadsEnd data size k lens ≤ size := by
  induction lens with
  | nil => intro k hk; simpa [memReadsEnd] using hk
  | cons len lens ih =>
    intro k hk
    simp only [memReadsEnd]
    exact ih _ (memReader_next_le data size k len hk)

theorem memReadsEnd_eq (data : List Byte) (size : Nat) (lens : List Nat) :
    ∀ k, k ≤ size → memReadsEnd data size k lens = min size (k + lens.sum) := by
  induction lens with
  | nil => intro k hk; simp [memReadsEnd]; omega
  | cons len lens ih =>
    intro k hk
    simp only [memReadsEnd, List.sum_cons]
    rw [ih _ (memReader_next_le data size k len hk), memReader_next]
    omega

theorem delivered_cons (r : ReadOut Nat) (rs : List (ReadOut Nat)) :
    delivered (r :: rs) = r.copied ++ delivered rs := by
  simp [delivered]

theorem take_append_take_drop (data : List Byte) (k m : Nat) :
    data.take k ++ (data.drop k).take m = data.take (k + m) := by
  rw [List.take_add]

theorem delivered_memReads (data : List Byte) (size : Nat) (lens : List Nat) :
    ∀ k, k ≤ size →
      data.take k ++ delivered (memReads data size k lens) =
        data.take (memReadsEnd data size k lens) := by
  induction lens with
  | nil => intro k _; simp [memReads, memReadsEnd, delivered]
  | cons len lens ih =>
    intro k hk
    simp only [memReads, memReadsEnd, delivered_cons]
    rw [← ih _ (memReader_next_le data size k len hk), memReader_copied, memReader_next,
      ← List.append_assoc, take_append_take_drop]

theorem memReads_bounds (data : List Byte) (size : Nat) (lens : List Nat) :
    ∀ k, k ≤ size → ∀ r ∈ memReads data size k lens, r.next ≤ size := by
  induction lens with
  | nil => intro k _ r hr; simp [memReads] at hr
  | cons len lens ih =>
    intro k hk r hr
    simp only [memReads, List.mem_cons] at hr
    rcases hr with rfl | hr
    · exact memReader_next_le data size k len hk
    · exact ih _ (memReader_next_le data size k len hk) r hr

theorem memReader_getElem (data : List Byte) (size k len i : Nat)
    (hi : i < min len (size - k)) :
    (memReader data size k len).copied[i]? = data[k + i]? := by
  rw [memReader_copied, List.getElem?_take_of_lt hi, List.getElem?_drop]

theorem memReader_count_zero_iff (data : List Byte) (size k len : Nat) (hk : k ≤ size)
    (hlen : 0 < len) : (memReader data size k len).count = 0 ↔ size ≤ k := by
  rw [memReader_count _ _ _ _ hk]
  omega

/-- C5: with `k ≤ size` bytes delivered and a requested length `len > 0`, the byte
source of `unpickle(data, size, ...)` returns `min(len, size - k)`, copies exactly
`data[k .. k + min(len, size - k))` and advances the counter by that amount; it
returns 0 exactly when `k ≥ size`, then copies nothing, leaves the counter at `k`,
and every later call returns 0 as well. -/
theorem memReader_contract (data : List Byte) (size k len : Nat) (hk : k ≤ size)
    (hlen : 0 < len) :
    (memReader data size k len).count = min len (size - k) ∧
    (memReader data size k len).copied = (data.drop k).take (min len (size - k)) ∧
    (∀ i, i < min len (size - k) → (memReader data size k len).copied[i]? = data[k + i]?) ∧
    (size ≤ data.length → (memReader data size k len).copied.length = min len (size - k)) ∧
    (memReader data size k len).next = k + min len (size - k) ∧
    ((memReader data size k len).count = 0 ↔ size ≤ k) ∧
    ((memReader data size k len).count = 0 →
      (memReader data size k len).copied = [] ∧ (memReader data size k len).next = k ∧
      ∀ lens : List Nat, ∀ r ∈ memReads data size (memReader data size k len).next lens,
        r.count = 0 ∧ r.copied = [] ∧ r.next = k) := by
  refine ⟨memReader_count _ _ _ _ hk, memReader_copied _ _ _ _,
    fun i hi => memReader_getElem _ _ _ _ _ hi, ?_, memReader_next _ _ _ _,
    memReader_count_zero_iff _ _ _ _ hk hlen, ?_⟩
  · intro hsz
    rw [memReader_copied, List.length_take, List.length_drop]
    omega
  · intro h0
    have hge : size ≤ k := (memReader_count_zero_iff _ _ _ _ hk hlen).mp h0
    rw [memReader_of_le _ _ _ _ hge]
    refine ⟨rfl, rfl, ?_⟩
    intro lens r hr
    rw [memReads_of_le _ _ _ _ hge] at hr
    simp only [List.mem_map] at hr
    obtain ⟨_, _, rfl⟩ := hr
    exact ⟨rfl, rfl, rfl⟩

theorem memReader_contract_witness :
    0 ≤ 3 ∧ (memReader [10, 11, 12, 13] 3 0 2).count = 2 ∧
      (memReader [10, 11, 12, 13] 3 2 5).copied = [12] ∧
      ((memReader [10, 11, 12, 13] 3 3 5).count = 0 ↔ 3 ≤ 3) :=
  ⟨by decide,
   by rw [(memReader_contract [10, 11, 12, 13] 3 0 2 (by decide) (by decide)).1]; decide,
   by rw [(memReader_contract [10, 11, 12, 13] 3 2 5 (by decide) (by decide)).2.1]; decide,
   (memReader_contract [10, 11, 12, 13] 3 3 5 (by decide) (by decide)).2.2.2.2.2.1⟩

/-! ## `VectorReader` -/

/-- C10 (the code at the failing input): on the one-byte vector `[7]`,
`read(0, buf, 2)` dereferences offset 1, which is outside `[0, size())`, and
returns 2, which is more than the `size() - pos = 1` bytes the vector holds. -/
theorem VectorReader_read_past_end :
    (VectorReader.new [7]).size = 1 ∧
    ((VectorReader.new [7]).read 0 2).count = 2 ∧
    ((VectorReader.new [7]).read 0 2).offsets = [0, 1] ∧
    ((VectorReader.new [7]).read 0 2).bytes = [7] ∧
    ¬ (∀ o ∈ ((VectorReader.new [7]).read 0 2).offsets, o < (VectorReader.new [7]).size) ∧
    ¬ (((VectorReader.new [7]).read 0 2).count ≤ (VectorReader.new [7]).size - 0) := by
  decide

/-! ## Operands -/

theorem length_leBytes (w n : Nat) : (leBytes w n).length = w := by
  induction w generalizing n with
  | zero => rfl
  | succ w ih => simp [leBytes, ih]

theorem leValue_leBytes (w n : Nat) (h : n < 256 ^ w) : leValue (leBytes w n) = n := by
  induction w generalizing n with
  | zero =>
    simp at h
    simp [leBytes, leValue, h]
  | succ w ih =>
    have h2 : n / 256 < 256 ^ w := by
      rw [Nat.div_lt_iff_lt_mul (by decide)]
      rw [pow_succ] at h
      exact h
    simp only [leBytes, leValue, ih _ h2]
    omega

theorem leValue_word (n : Nat) (h : n < 2 ^ 64) : leValue (leBytes wordBytes n) = n := by
  apply leValue_leBytes
  simpa [wordBytes] using h

theorem intBits_lt (i : Int) : intBits i < 2 ^ 64 := by
  unfold intBits
  omega

theorem bitsInt_intBits (i : Int) (h1 : -(2 ^ 63) ≤ i) (h2 : i < 2 ^ 63) :
    bitsInt (intBits i) = i := by
  unfold bitsInt intBits
  split <;> omega

theorem Opcode.ofByte_toByte (op : Opcode) : Opcode.ofByte op.toByte = some op := by
  cases op <;> rfl

theorem length_encString (s : List Byte) : (encString s).length = wordBytes + s.length := by
  simp [encString, length_leBytes]

/-! ## The unpickler on the in-memory byte source -/

@[simp] theorem Unpickler.adv_reader (u : Unpickler Nat) (n : Nat) : (u.adv n).reader = u.reader := rfl
@[simp] theorem Unpickler.adv_src (u : Unpickler Nat) (n : Nat) : (u.adv n).src = u.src + n := rfl
@[simp] theorem Unpickler.adv_stack (u : Unpickler Nat) (n : Nat) : (u.adv n).stack = u.stack := rfl
@[simp] theorem Unpickler.adv_memo (u : Unpickler Nat) (n : Nat) : (u.adv n).memo = u.memo := rfl
@[simp] theorem Unpickler.adv_tensors (u : Unpickler Nat) (n : Nat) :
    (u.adv n).tensors = u.tensors := rfl
@[simp] theorem Unpickler.adv_class_resolver (u : Unpickler Nat) (n : Nat) :
    (u.adv n).class_resolver = u.class_resolver := rfl

theorem Unpickler.adv_adv (u : Unpickler Nat) (m n : Nat) : (u.adv m).adv n = u.adv (m + n) := by
  simp [Unpickler.adv, Nat.add_assoc]

theorem Unpickler.adv_zero (u : Unpickler Nat) : u.adv 0 = u := rfl

/-- What `readBytes` does on the in-memory source. -/
theorem Unpickler.readBytes_mem (u : Unpickler Nat) (data : List Byte) (size n : Nat)
    (hr : u.reader = memReader data size) :
    u.readBytes n =
      if n = 0 ∨ u.src + n ≤ size then .ok ((data.drop u.src).take n, u.adv n)
      else .error .streamCorrupt := by
  unfold Unpickler.readBytes
  rw [hr]
  by_cases hk : size ≤ u.src
  · rw [memReader_of_le _ _ _ _ hk]
    by_cases hn : n = 0
    · subst hn
      simp [Unpickler.adv]
      exact hr.symm
    · have h1 : ¬ (n = 0 ∨ u.src + n ≤ size) := by omega
      have h2 : ¬ (0 = n) := by omega
      simp [h1, h2]
  · rw [memReader_of_lt _ _ _ _ (by omega)]
    by_cases hn : n = 0 ∨ u.src + n ≤ size
    · have h1 : min (size - u.src) n = n := by omega
      simp [hn, h1, Unpickler.adv]
      exact hr.symm
    · have h1 : ¬ (min (size - u.src) n = n) := by omega
      simp [hn, h1]

theorem Unpickler.readBytes_ok (u : Unpickler Nat) (data : List Byte) (size : Nat)
    (x rest : List Byte) (hr : u.reader = memReader data size)
    (hd : data.drop u.src = x ++ rest) (hs : u.src + x.length ≤ size) :
    u.readBytes x.length = .ok (x, u.adv x.length) := by
  rw [Unpickler.readBytes_mem u data size _ hr, hd]
  simp [hs]

theorem drop_adv (u : Unpickler Nat) (data x rest : List Byte)
    (hd : data.drop u.src = x ++ rest) : data.drop (u.adv x.length).src = rest := by
  rw [Unpickler.adv_src, ← List.drop_drop, hd]
  simp

theorem Unpickler.readWord_ok (u : Unpickler Nat) (data : List Byte) (size n : Nat)
    (rest : List Byte) (hr : u.reader = memReader data size)
    (hd : data.drop u.src = leBytes wordBytes n ++ rest) (hs : u.src + wordBytes ≤ size)
    (hn : n < 2 ^ 64) : u.readWord = .ok (n, u.adv wordBytes) := by
  unfold Unpickler.readWord
  have h := Unpickler.readBytes_ok u data size _ rest hr hd (by rw [length_leBytes]; exact hs)
  rw [length_leBytes] at h
  rw [h]
  simp [leValue_word n hn]

theorem Unpickler.readString_ok (u : Unpickler Nat) (data : List Byte) (size : Nat)
    (s rest : List Byte) (hr : u.reader = memReader data size)
    (hd : data.drop u.src = encString s ++ rest)
    (hs : u.src + (encString s).length ≤ size) (hn : s.length < 2 ^ 64) :
    u.readString = .ok (s, u.adv (encString s).length) := by
  unfold Unpickler.readString
  rw [length_encString] at hs
  have hd1 : data.drop u.src = leBytes wordBytes s.length ++ (s ++ rest) := by
    rw [hd, encString, List.append_assoc]
  rw [Unpickler.readWord_ok u data size s.length _ hr hd1 (by omega) hn]
  have hd2 : data.drop (u.adv wordBytes).src = s ++ rest := by
    have := drop_adv u data _ _ hd1
    rwa [length_leBytes] at this
  have h := Unpickler.readBytes_ok (u.adv wordBytes) data size s rest (by simpa using hr) hd2
    (by simp; omega)
  simp only [h, Unpickler.adv_adv, length_encString]

theorem Unpickler.readTag_ok (u : Unpickler Nat) (data : List Byte) (size : Nat)
    (tag : TypeTag) (rest : List Byte) (hr : u.reader = memReader data size)
    (hd : data.drop u.src = encTag tag ++ rest)
    (hs : u.src + (encTag tag).length ≤ size) (hm : tag.module.length < 2 ^ 64)
    (hn : tag.name.length < 2 ^ 64) :
    u.readTag = .ok (tag, u.adv (encTag tag).length) := by
  unfold Unpickler.readTag
  have hlen : (encTag tag).length = (encString tag.module).length + (encString tag.name).length := by
    simp [encTag]
  have hd1 : data.drop u.src = encString tag.module ++ (encString tag.name ++ rest) := by
    rw [hd, encTag, List.append_assoc]
  rw [Unpickler.readString_ok u data size _ _ hr hd1 (by omega) hm]
  have hd2 := drop_adv u data _ _ hd1
  have h := Unpickler.readString_ok (u.adv (encString tag.module).length) data size _ _
    (by simpa using hr) hd2 (by simp; omega) hn
  simp only [h, Unpickler.adv_adv, hlen]

theorem Unpickler.readOpCode_ok (u : Unpickler Nat) (data : List Byte) (size : Nat)
    (op : Opcode) (rest : List Byte) (hr : u.reader = memReader data size)
    (hd : data.drop u.src = op.toByte :: rest) (hs : u.src + 1 ≤ size) :
    u.readOpCode = .ok (op, u.adv 1) := by
  unfold Unpickler.readOpCode
  have h := Unpickler.readBytes_ok u data size [op.toByte] rest hr (by simpa using hd)
    (by simpa using hs)
  simp only [List.length_singleton] at h
  rw [h]
  simp [Opcode.ofByte_toByte]

/-- One turn of the loop on a stream that starts with the byte of `op`. -/
theorem Unpickler.step_op (u : Unpickler Nat) (data : List Byte) (size : Nat)
    (op : Opcode) (rest : List Byte) (hr : u.reader = memReader data size)
    (hd : data.drop u.src = op.toByte :: rest) (hs : u.src + 1 ≤ size) :
    u.step = (u.adv 1).exec op := by
  unfold Unpickler.step
  rw [Unpickler.readOpCode_ok u data size op rest hr hd hs]

theorem popToMark_vals (ys : List IValue) (below : List Entry) :
    popToMark (ys.map Entry.val ++ Entry.mark :: below) = some (ys.reverse, below) := by
  induction ys with
  | nil => rfl
  | cons y ys ih => simp [popToMark, ih]

theorem popToMark_pushed (xs : List IValue) (below : List Entry) :
    popToMark (xs.reverse.map Entry.val ++ Entry.mark :: below) = some (xs, below) := by
  rw [popToMark_vals, List.reverse_reverse]

theorem pairUp_flatItems (kvs : List (IValue × IValue)) : pairUp (flatItems kvs) = some kvs := by
  induction kvs with
  | nil => rfl
  | cons kv kvs ih =>
    obtain ⟨k, v⟩ := kv
    simp [flatItems, pairUp, ih]

/-! ## Encoding, then decoding -/

@[simp] theorem Pickler.push_writer {σ : Type} (p : Pickler σ) (bs : List Byte) :
    (p.push bs).writer = p.writer := rfl
@[simp] theorem Pickler.push_sink {σ : Type} (p : Pickler σ) (bs : List Byte) :
    (p.push bs).sink = p.writer p.sink bs := rfl
@[simp] theorem Pickler.push_tensor_table {σ : Type} (p : Pickler σ) (bs : List Byte) :
    (p.push bs).tensor_table = p.tensor_table := rfl
@[simp] theorem Pickler.push_tensor_data {σ : Type} (p : Pickler σ) (bs : List Byte) :
    (p.push bs).tensor_data = p.tensor_data := rfl
@[simp] theorem Pickler.push_table {σ : Type} (p : Pickler σ) (bs : List Byte) :
    (p.push bs).table = p.table := rfl

theorem Unpickler.run_next (u u1 : Unpickler Nat) (fuel : Nat) (h : u.step = .next u1) :
    Unpickler.run (fuel + 1) u = Unpickler.run fuel u1 := by
  simp [Unpickler.run, h]

theorem Agrees.of_append {tensors : Nat → Except Err Tensor} {t1 ext : List Tensor}
    (h : Agrees tensors (t1 ++ ext)) : Agrees tensors t1 := by
  intro i t hi
  apply h
  rw [List.getElem?_append_left]
  · exact hi
  · by_contra hlt
    rw [List.getElem?_eq_none (by omega)] at hi
    cases hi

theorem DecodesTo.extend {bs : List Byte} {n : Nat} {t1 ext : List Tensor}
    {ok : Option ClassResolver → Bool} {vs : List IValue} (h : DecodesTo bs n t1 ok vs) :
    DecodesTo bs n (t1 ++ ext) ok vs := by
  intro u data size rest fuel hr hd hs ha hl hok
  exact h u data size rest fuel hr hd hs ha.of_append (by simp at hl; omega) hok

theorem DecodesTo.relax {bs : List Byte} {n : Nat} {t1 : List Tensor}
    {ok ok2 : Option ClassResolver → Bool} {vs : List IValue} (h : DecodesTo bs n t1 ok vs)
    (hw : ∀ cr, ok2 cr = true → ok cr = true) : DecodesTo bs n t1 ok2 vs := by
  intro u data size rest fuel hr hd hs ha hl hok
  exact h u data size rest fuel hr hd hs ha hl (hw _ hok)

theorem Unpickler.pushVals_adv (u : Unpickler Nat) (m n : Nat) (vs ws : List IValue) :
    (((u.adv m).pushVals vs).adv n).pushVals ws = (u.adv (m + n)).pushVals (vs ++ ws) := by
  simp [Unpickler.adv, Unpickler.pushVals, Nat.add_assoc]

theorem DecodesTo.append {bs1 bs2 : List Byte} {n1 n2 : Nat} {table : List Tensor}
    {ok1 ok2 : Option ClassResolver → Bool} {vs1 vs2 : List IValue}
    (h1 : DecodesTo bs1 n1 table ok1 vs1) (h2 : DecodesTo bs2 n2 table ok2 vs2) :
    DecodesTo (bs1 ++ bs2) (n1 + n2) table (fun cr => ok1 cr && ok2 cr) (vs1 ++ vs2) := by
  intro u data size rest fuel hr hd hs ha hl hok
  simp only [Bool.and_eq_true] at hok
  simp only [List.length_append] at hs
  have e1 : fuel + (n1 + n2) = (fuel + n2) + n1 := by omega
  rw [e1, h1 u data size (bs2 ++ rest) (fuel + n2) hr (by rw [hd, List.append_assoc])
    (by omega) ha hl hok.1]
  have hd2 : data.drop ((u.adv bs1.length).pushVals vs1).src = bs2 ++ rest := by
    have := drop_adv u data bs1 (bs2 ++ rest) (by rw [hd, List.append_assoc])
    exact this
  rw [h2 _ data size rest fuel (by exact hr) hd2 (by show u.src + bs1.length + _ ≤ _; omega) ha hl hok.2]
  rw [Unpickler.pushVals_adv, List.length_append]

theorem DecodesTo.empty (table : List Tensor) : DecodesTo [] 0 table (fun _ => true) [] := by
  intro u data size rest fuel _ _ _ _ _ _
  rfl

/-- An opcode without operand that pushes one value. -/
theorem DecodesTo.literal (op : Opcode) (v : IValue) (table : List Tensor)
    (h : ∀ u : Unpickler Nat, u.exec op = .next (u.pushVal v)) :
    DecodesTo [op.toByte] 1 table (fun _ => true) [v] := by
  intro u data size rest fuel hr hd hs _ _ _
  apply Unpickler.run_next
  rw [Unpickler.step_op u data size op rest hr (by simpa using hd) (by simpa using hs), h]
  rfl

theorem findTensor_some (t : Tensor) (table : List Tensor) (i : Nat)
    (h : findTensor t table = some i) : table[i]? = some t := by
  induction table generalizing i with
  | nil => simp [findTensor] at h
  | cons x xs ih =>
    simp only [findTensor] at h
    split at h
    · next hx =>
      cases h
      simp [hx]
    · cases hf : findTensor t xs with
      | none => simp [hf] at h
      | some j =>
        simp [hf] at h
        subst h
        simpa using ih j hf

theorem lookupOrAppend_spec (table : List Tensor) (t : Tensor) :
    (lookupOrAppend table t).2[(lookupOrAppend table t).1]? = some t ∧
    ∃ ext, (lookupOrAppend table t).2 = table ++ ext := by
  unfold lookupOrAppend
  cases h : findTensor t table with
  | some i => exact ⟨findTensor_some t table i h, [], by simp⟩
  | none => exact ⟨by simp, [t], rfl⟩

/-- A tensor reference whose index holds `t` in the table. -/
theorem DecodesTo.tensor (t : Tensor) (i : Nat) (table : List Tensor)
    (h : table[i]? = some t) :
    DecodesTo (Opcode.tensorRef.toByte :: leBytes wordBytes i) 1 table (fun _ => true)
      [.tensor t] := by
  intro u data size rest fuel hr hd hs ha hl _
  have hi : i < 2 ^ 64 := by
    have : i < table.length := by
      by_contra hlt
      rw [List.getElem?_eq_none (by omega)] at h
      cases h
    omega
  simp only [List.length_cons, length_leBytes] at hs
  apply Unpickler.run_next
  rw [Unpickler.step_op u data size _ _ hr (by simpa using hd) (by omega)]
  have hd1 : data.drop (u.adv 1).src = leBytes wordBytes i ++ rest := by
    have := drop_adv u data [Opcode.tensorRef.toByte] (leBytes wordBytes i ++ rest)
      (by simpa using hd)
    simpa using this
  simp only [Unpickler.exec]
  rw [Unpickler.readWord_ok (u.adv 1) data size i rest (by simpa using hr) hd1
    (by simp; omega) hi]
  simp only [Unpickler.adv_tensors, ha i t h]
  simp [Unpickler.adv, Unpickler.pushVals, Unpickler.pushVal, length_leBytes, Nat.add_assoc,
    Nat.add_comm]
  omega

/-- The integer literal. -/
theorem DecodesTo.int (i : Int) (table : List Tensor) (h1 : -(2 ^ 63) ≤ i) (h2 : i < 2 ^ 63) :
    DecodesTo (Opcode.pushInt.toByte :: leBytes wordBytes (intBits i)) 1 table (fun _ => true)
      [.int i] := by
  intro u data size rest fuel hr hd hs _ _ _
  simp only [List.length_cons, length_leBytes] at hs
  apply Unpickler.run_next
  rw [Unpickler.step_op u data size _ _ hr (by simpa using hd) (by omega)]
  have hd1 : data.drop (u.adv 1).src = leBytes wordBytes (intBits i) ++ rest := by
    have := drop_adv u data [Opcode.pushInt.toByte] (leBytes wordBytes (intBits i) ++ rest)
      (by simpa using hd)
    simpa using this
  simp only [Unpickler.exec]
  rw [Unpickler.readWord_ok (u.adv 1) data size _ rest (by simpa using hr) hd1
    (by simp; omega) (intBits_lt i)]
  simp [Unpickler.adv, Unpickler.pushVals, Unpickler.pushVal, length_leBytes, Nat.add_assoc,
    Nat.add_comm, bitsInt_intBits i h1 h2]
  omega

/-- The double literal. -/
theorem DecodesTo.double (bits : Nat) (table : List Tensor) (h : bits < 2 ^ 64) :
    DecodesTo (Opcode.pushDouble.toByte :: leBytes wordBytes bits) 1 table (fun _ => true)
      [.double bits] := by
  intro u data size rest fuel hr hd hs _ _ _
  simp only [List.length_cons, length_leBytes] at hs
  apply Unpickler.run_next
  rw [Unpickler.step_op u data size _ _ hr (by simpa using hd) (by omega)]
  have hd1 : data.drop (u.adv 1).src = leBytes wordBytes bits ++ rest := by
    have := drop_adv u data [Opcode.pushDouble.toByte] (leBytes wordBytes bits ++ rest)
      (by simpa using hd)
    simpa using this
  simp only [Unpickler.exec]
  rw [Unpickler.readWord_ok (u.adv 1) data size _ rest (by simpa using hr) hd1
    (by simp; omega) h]
  simp [Unpickler.adv, Unpickler.pushVals, Unpickler.pushVal, length_leBytes, Nat.add_assoc,
    Nat.add_comm]
  omega

/-- The string literal. -/
theorem DecodesTo.string (s : List Byte) (table : List Tensor) (h : s.length < 2 ^ 64) :
    DecodesTo (Opcode.pushString.toByte :: encString s) 1 table (fun _ => true)
      [.string s] := by
  intro u data size rest fuel hr hd hs _ _ _
  simp only [List.length_cons] at hs
  apply Unpickler.run_next
  rw [Unpickler.step_op u data size _ _ hr (by simpa using hd) (by omega)]
  have hd1 : data.drop (u.adv 1).src = encString s ++ rest := by
    have := drop_adv u data [Opcode.pushString.toByte] (encString s ++ rest)
      (by simpa using hd)
    simpa using this
  simp only [Unpickler.exec]
  rw [Unpickler.readString_ok (u.adv 1) data size _ rest (by simpa using hr) hd1
    (by simp; omega) h]
  simp [Unpickler.adv, Unpickler.pushVals, Unpickler.pushVal, Nat.add_assoc, Nat.add_comm]

@[simp] theorem Unpickler.pushVals_src (u : Unpickler Nat) (vs : List IValue) :
    (u.pushVals vs).src = u.src := rfl
@[simp] theorem Unpickler.pushVals_reader (u : Unpickler Nat) (vs : List IValue) :
    (u.pushVals vs).reader = u.reader := rfl
@[simp] theorem Unpickler.pushVals_class_resolver (u : Unpickler Nat) (vs : List IValue) :
    (u.pushVals vs).class_resolver = u.class_resolver := rfl
@[simp] theorem Unpickler.pushVals_tensors (u : Unpickler Nat) (vs : List IValue) :
    (u.pushVals vs).tensors = u.tensors := rfl
@[simp] theorem Unpickler.pushVals_stack (u : Unpickler Nat) (vs : List IValue) :
    (u.pushVals vs).stack = vs.reverse.map Entry.val ++ u.stack := rfl
@[simp] theorem Unpickler.pushMark_src (u : Unpickler Nat) : u.pushMark.src = u.src := rfl
@[simp] theorem Unpickler.pushMark_reader (u : Unpickler Nat) : u.pushMark.reader = u.reader := rfl
@[simp] theorem Unpickler.pushMark_class_resolver (u : Unpickler Nat) :
    u.pushMark.class_resolver = u.class_resolver := rfl
@[simp] theorem Unpickler.pushMark_tensors (u : Unpickler Nat) :
    u.pushMark.tensors = u.tensors := rfl
@[simp] theorem Unpickler.pushMark_stack (u : Unpickler Nat) :
    u.pushMark.stack = Entry.mark :: u.stack := rfl

/-- A start marker, children that decode to `xs`, and a closing opcode with its operand
that builds `v` from the values above the marker. -/
theorem DecodesTo.enclosed (bs : List Byte) (n : Nat) (table : List Tensor)
    (ok ok2 : Option ClassResolver → Bool) (xs : List IValue) (close : Opcode)
    (operand : List Byte) (v : IValue) (h : DecodesTo bs n table ok xs)
    (hclose : ∀ (u : Unpickler Nat) (data : List Byte) (size : Nat) (rest : List Byte)
      (below : List Entry), u.reader = memReader data size →
      data.drop u.src = operand ++ rest → u.src + operand.length ≤ size →
      u.stack = xs.reverse.map Entry.val ++ Entry.mark :: below →
      ok2 u.class_resolver = true →
      u.exec close = .next { (u.adv operand.length) with stack := Entry.val v :: below }) :
    DecodesTo (Opcode.mark.toByte :: bs ++ (close.toByte :: operand)) (n + 2) table
      (fun cr => ok2 cr && ok cr) [v] := by
  intro u data size rest fuel hr hd hs ha hl hok
  simp only [Bool.and_eq_true] at hok
  simp only [List.length_cons, List.length_append] at hs
  have hd0 : data.drop u.src = Opcode.mark.toByte :: (bs ++ (close.toByte :: (operand ++ rest))) := by
    rw [hd]
    simp
  have hstep1 : u.step = .next (u.adv 1).pushMark := by
    rw [Unpickler.step_op u data size _ _ hr hd0 (by omega)]
    rfl
  have e1 : fuel + (n + 2) = (fuel + 1 + n) + 1 := by omega
  rw [e1, Unpickler.run_next u _ _ hstep1]
  have hd1 : data.drop (u.adv 1).pushMark.src = bs ++ (close.toByte :: (operand ++ rest)) := by
    have := drop_adv u data [Opcode.mark.toByte] _ hd0
    simpa using this
  rw [h _ data size _ (fuel + 1) (by simpa using hr) hd1 (by simp; omega) ha hl hok.2]
  apply Unpickler.run_next
  have hd2 : data.drop (((u.adv 1).pushMark.adv bs.length).pushVals xs).src =
      close.toByte :: (operand ++ rest) := drop_adv (u.adv 1).pushMark data bs _ hd1
  rw [Unpickler.step_op _ data size close (operand ++ rest) (by simpa using hr) hd2
    (by simp; omega)]
  have hd3 : data.drop ((((u.adv 1).pushMark.adv bs.length).pushVals xs).adv 1).src =
      operand ++ rest := by
    have := drop_adv (((u.adv 1).pushMark.adv bs.length).pushVals xs) data [close.toByte]
      (operand ++ rest) (by simpa using hd2)
    simpa using this
  rw [hclose _ data size rest u.stack (by simpa using hr) hd3 (by simp; omega) (by simp)
    (by simpa using hok.1)]
  simp [Unpickler.adv, Unpickler.pushVals, Unpickler.pushMark, Nat.add_assoc, Nat.add_comm]
  omega

/-- A sequence on the wire. -/
theorem DecodesTo.list (bs : List Byte) (n : Nat) (table : List Tensor)
    (ok : Option ClassResolver → Bool) (xs : List IValue) (h : DecodesTo bs n table ok xs) :
    DecodesTo (Opcode.mark.toByte :: bs ++ [Opcode.buildList.toByte]) (n + 2) table ok
      [.list xs] := by
  have := DecodesTo.enclosed bs n table ok (fun _ => true) xs Opcode.buildList [] (.list xs) h
    (by
      intro u data size rest below _ _ _ hst _
      simp only [Unpickler.exec, hst, popToMark_pushed]
      rfl)
  exact this.relax (by intro cr h; simpa using h)

/-- A mapping on the wire. -/
theorem DecodesTo.dict (bs : List Byte) (n : Nat) (table : List Tensor)
    (ok : Option ClassResolver → Bool) (kvs : List (IValue × IValue))
    (h : DecodesTo bs n table ok (flatItems kvs)) :
    DecodesTo (Opcode.mark.toByte :: bs ++ [Opcode.buildDict.toByte]) (n + 2) table ok
      [.dict kvs] := by
  have := DecodesTo.enclosed bs n table ok (fun _ => true) (flatItems kvs) Opcode.buildDict []
    (.dict kvs) h
    (by
      intro u data size rest below _ _ _ hst _
      simp only [Unpickler.exec, hst, popToMark_pushed, pairUp_flatItems]
      rfl)
  exact this.relax (by intro cr h; simpa using h)

/-- An object on the wire. -/
theorem DecodesTo.object (bs : List Byte) (n : Nat) (table : List Tensor)
    (ok : Option ClassResolver → Bool) (tag : TypeTag) (xs : List IValue)
    (hm : tag.module.length < 2 ^ 64) (hn : tag.name.length < 2 ^ 64)
    (h : DecodesTo bs n table ok xs) :
    DecodesTo (Opcode.mark.toByte :: bs ++ (Opcode.buildObject.toByte :: encTag tag)) (n + 2)
      table (fun cr => (resolveTag cr tag).isSome && ok cr) [.object tag xs] := by
  apply DecodesTo.enclosed bs n table ok (fun cr => (resolveTag cr tag).isSome) xs
    Opcode.buildObject (encTag tag) (.object tag xs) h
  intro u data size rest below hr hd hs hst hres
  obtain ⟨d, hd'⟩ := Option.isSome_iff_exists.mp hres
  simp only [Unpickler.exec]
  rw [Unpickler.readTag_ok u data size tag rest hr hd hs hm hn]
  simp only [Unpickler.resolve, Unpickler.adv_class_resolver, hd', Unpickler.adv_stack, hst,
    popToMark_pushed]

theorem Emits.weaken {p p' : Pickler (List Byte)} {ok ok2 : Option ClassResolver → Bool}
    {vs : List IValue} (h : Emits p p' ok vs) (hw : ∀ cr, ok2 cr = true → ok cr = true) :
    Emits p p' ok2 vs := by
  obtain ⟨h1, h2, h3, bs, n, h4, h5, h6⟩ := h
  exact ⟨h1, h2, h3, bs, n, h4, h5, h6.relax hw⟩

theorem Emits.nil (p : Pickler (List Byte)) (hw : p.writer = appendSink) :
    Emits p p (fun _ => true) [] :=
  ⟨hw, rfl, ⟨[], by simp⟩, [], 0, by simp, by simp, DecodesTo.empty _⟩

/-- One record pushed through the appending sink. -/
theorem Emits.push (p : Pickler (List Byte)) (hw : p.writer = appendSink) (bs : List Byte)
    (n : Nat) (ok : Option ClassResolver → Bool) (vs : List IValue) (hn : n ≤ bs.length)
    (h : DecodesTo bs n p.table ok vs) : Emits p (p.push bs) ok vs :=
  ⟨hw, rfl, ⟨[], by simp⟩, bs, n, by simp [hw, appendSink], hn, h⟩

theorem Emits.trans {p p1 p2 : Pickler (List Byte)} {ok1 ok2 : Option ClassResolver → Bool}
    {vs1 vs2 : List IValue} (h1 : Emits p p1 ok1 vs1) (h2 : Emits p1 p2 ok2 vs2) :
    Emits p p2 (fun cr => ok1 cr && ok2 cr) (vs1 ++ vs2) := by
  obtain ⟨_, a2, ⟨e1, a3⟩, bs1, n1, a4, a5, a6⟩ := h1
  obtain ⟨b1, b2, ⟨e2, b3⟩, bs2, n2, b4, b5, b6⟩ := h2
  refine ⟨b1, b2.trans a2, ⟨e1 ++ e2, by rw [b3, a3, List.append_assoc]⟩, bs1 ++ bs2, n1 + n2,
    by rw [b4, a4, List.append_assoc], by simp; omega, ?_⟩
  rw [b3]
  exact DecodesTo.append a6.extend (b3 ▸ b6)

/-- A start marker, children, and a closing record. -/
theorem Emits.bracket {p p1 : Pickler (List Byte)} {ok : Option ClassResolver → Bool}
    {xs : List IValue} (hw : p.writer = appendSink)
    (h : Emits (p.push [Opcode.mark.toByte]) p1 ok xs) (close : List Byte)
    (ok2 : Option ClassResolver → Bool) (v : IValue)
    (hdec : ∀ bs n table, DecodesTo bs n table ok xs →
      DecodesTo (Opcode.mark.toByte :: bs ++ close) (n + 2) table ok2 [v])
    (hc : 1 ≤ close.length) :
    Emits p (p1.push close) ok2 [v] := by
  obtain ⟨a1, a2, ⟨e1, a3⟩, bs1, n1, a4, a5, a6⟩ := h
  refine ⟨a1, a2, ⟨e1, a3⟩, Opcode.mark.toByte :: bs1 ++ close, n1 + 2, ?_, ?_, ?_⟩
  · simp [a1, a4, hw, appendSink]
  · simp
    omega
  · exact hdec bs1 n1 _ a6

theorem Pickler.pushTensor_emits (p : Pickler (List Byte)) (hw : p.writer = appendSink)
    (t : Tensor) : Emits p (p.pushTensor t) (fun _ => true) [.tensor t] := by
  unfold Pickler.pushTensor
  cases htt : p.tensor_table with
  | some table =>
    obtain ⟨hget, ext, hext⟩ := lookupOrAppend_spec table t
    refine ⟨hw, by simp [htt], ⟨ext, by simp [Pickler.table, htt, hext]⟩,
      Opcode.tensorRef.toByte :: leBytes wordBytes (lookupOrAppend table t).1, 1, ?_, by simp, ?_⟩
    · simp [hw, appendSink]
    · exact DecodesTo.tensor t _ _ (by simpa [Pickler.table] using hget)
  | none =>
    obtain ⟨hget, ext, hext⟩ := lookupOrAppend_spec p.tensor_data t
    refine ⟨hw, by simp [htt], ⟨ext, by simp [Pickler.table, htt, hext]⟩,
      Opcode.tensorRef.toByte :: leBytes wordBytes (lookupOrAppend p.tensor_data t).1, 1, ?_,
      by simp, ?_⟩
    · simp [hw, appendSink]
    · exact DecodesTo.tensor t _ _ (by simpa [Pickler.table, htt] using hget)

mutual
/-- What a successful `pushIValue` has emitted decodes to the value. -/
theorem Pickler.pushIValue_emits (reg : Registry) :
    ∀ (v : IValue) (p p' : Pickler (List Byte)), p.writer = appendSink →
      Pickler.pushIValue reg p v = (p', .ok ()) → v.fits = true →
      Emits p p' (fun cr => v.resolved cr) [v]
  | .none, p, p', hw, hp, _ => by
    simp only [Pickler.pushIValue, Prod.mk.injEq, and_true] at hp
    subst hp
    exact (Emits.push p hw _ 1 _ _ (by simp)
      (DecodesTo.literal Opcode.pushNone .none _ (fun _ => rfl))).weaken (fun _ _ => rfl)
  | .bool b, p, p', hw, hp, _ => by
    simp only [Pickler.pushIValue, Prod.mk.injEq, and_true] at hp
    subst hp
    cases b
    · exact (Emits.push p hw _ 1 _ _ (by simp)
        (DecodesTo.literal Opcode.pushFalse (.bool false) _ (fun _ => rfl))).weaken
        (fun _ _ => rfl)
    · exact (Emits.push p hw _ 1 _ _ (by simp)
        (DecodesTo.literal Opcode.pushTrue (.bool true) _ (fun _ => rfl))).weaken
        (fun _ _ => rfl)
  | .int i, p, p', hw, hp, hf => by
    simp only [Pickler.pushIValue, Prod.mk.injEq, and_true] at hp
    subst hp
    simp only [IValue.fits, Bool.and_eq_true, decide_eq_true_eq] at hf
    exact (Emits.push p hw _ 1 _ _ (by simp)
      (DecodesTo.int i _ hf.1 hf.2)).weaken (fun _ _ => rfl)
  | .double bits, p, p', hw, hp, hf => by
    simp only [Pickler.pushIValue, Prod.mk.injEq, and_true] at hp
    subst hp
    simp only [IValue.fits, decide_eq_true_eq] at hf
    exact (Emits.push p hw _ 1 _ _ (by simp)
      (DecodesTo.double bits _ hf)).weaken (fun _ _ => rfl)
  | .string s, p, p', hw, hp, hf => by
    simp only [Pickler.pushIValue, Prod.mk.injEq, and_true] at hp
    subst hp
    simp only [IValue.fits, decide_eq_true_eq] at hf
    exact (Emits.push p hw _ 1 _ _ (by simp)
      (DecodesTo.string s _ hf)).weaken (fun _ _ => rfl)
  | .tensor t, p, p', hw, hp, _ => by
    simp only [Pickler.pushIValue, Prod.mk.injEq, and_true] at hp
    subst hp
    exact (Pickler.pushTensor_emits p hw t).weaken (fun _ _ => rfl)
  | .list xs, p, p', hw, hp, hf => by
    simp only [Pickler.pushIValue] at hp
    simp only [IValue.fits] at hf
    cases hq : Pickler.pushValues reg (p.push [Opcode.mark.toByte]) xs with
    | mk p1 r =>
      rw [hq] at hp
      cases r with
      | error e => simp at hp
      | ok _ =>
        simp only [Prod.mk.injEq, and_true] at hp
        subst hp
        have ih := Pickler.pushValues_emits reg xs _ p1 (by simpa using hw) hq hf
        exact (Emits.bracket hw ih [Opcode.buildList.toByte] _ (.list xs)
          (fun bs n table h => DecodesTo.list bs n table _ xs h) (by simp)).weaken
          (by intro cr h; simpa [IValue.resolved] using h)
  | .dict kvs, p, p', hw, hp, hf => by
    simp only [Pickler.pushIValue] at hp
    simp only [IValue.fits] at hf
    cases hq : Pickler.pushItems reg (p.push [Opcode.mark.toByte]) kvs with
    | mk p1 r =>
      rw [hq] at hp
      cases r with
      | error e => simp at hp
      | ok _ =>
        simp only [Prod.mk.injEq, and_true] at hp
        subst hp
        have ih := Pickler.pushItems_emits reg kvs _ p1 (by simpa using hw) hq hf
        exact (Emits.bracket hw ih [Opcode.buildDict.toByte] _ (.dict kvs)
          (fun bs n table h => DecodesTo.dict bs n table _ kvs h) (by simp)).weaken
          (by intro cr h; simpa [IValue.resolved] using h)
  | .object tag fields, p, p', hw, hp, hf => by
    simp only [Pickler.pushIValue] at hp
    simp only [IValue.fits, Bool.and_eq_true, decide_eq_true_eq] at hf
    by_cases hreg : reg tag = true
    · simp only [hreg, if_true] at hp
      cases hq : Pickler.pushValues reg (p.push [Opcode.mark.toByte]) fields with
      | mk p1 r =>
        rw [hq] at hp
        cases r with
        | error e => simp at hp
        | ok _ =>
          simp only [Prod.mk.injEq, and_true] at hp
          subst hp
          have ih := Pickler.pushValues_emits reg fields _ p1 (by simpa using hw) hq hf.2
          exact (Emits.bracket hw ih (Opcode.buildObject.toByte :: encTag tag) _
            (.object tag fields)
            (fun bs n table h => DecodesTo.object bs n table _ tag fields hf.1.1 hf.1.2 h)
            (by simp)).weaken (by intro cr h; simpa [IValue.resolved] using h)
    · simp [hreg] at hp
/-- What a successful `pushValues` has emitted decodes to the values, in order. -/
theorem Pickler.pushValues_emits (reg : Registry) :
    ∀ (xs : List IValue) (p p' : Pickler (List Byte)), p.writer = appendSink →
      Pickler.pushValues reg p xs = (p', .ok ()) → fitsAll xs = true →
      Emits p p' (fun cr => resolvedAll cr xs) xs
  | [], p, p', hw, hp, _ => by
    simp only [Pickler.pushValues, Prod.mk.injEq, and_true] at hp
    subst hp
    exact (Emits.nil p hw).weaken (fun _ _ => rfl)
  | x :: xs, p, p', hw, hp, hf => by
    simp only [Pickler.pushValues] at hp
    simp only [fitsAll, Bool.and_eq_true] at hf
    cases hq : Pickler.pushIValue reg p x with
    | mk p1 r =>
      rw [hq] at hp
      cases r with
      | error e => simp at hp
      | ok _ =>
        simp only at hp
        have ih1 := Pickler.pushIValue_emits reg x p p1 hw hq hf.1
        have ih2 := Pickler.pushValues_emits reg xs p1 p' ih1.1 hp hf.2
        exact (ih1.trans ih2).weaken (by intro cr h; simpa [resolvedAll] using h)
/-- What a successful `pushItems` has emitted decodes to the keys and values, in order. -/
theorem Pickler.pushItems_emits (reg : Registry) :
    ∀ (kvs : List (IValue × IValue)) (p p' : Pickler (List Byte)), p.writer = appendSink →
      Pickler.pushItems reg p kvs = (p', .ok ()) → fitsItems kvs = true →
      Emits p p' (fun cr => resolvedItems cr kvs) (flatItems kvs)
  | [], p, p', hw, hp, _ => by
    simp only [Pickler.pushItems, Prod.mk.injEq, and_true] at hp
    subst hp
    exact (Emits.nil p hw).weaken (fun _ _ => rfl)
  | (k, v) :: kvs, p, p', hw, hp, hf => by
    simp only [Pickler.pushItems] at hp
    simp only [fitsItems, Bool.and_eq_true] at hf
    cases hq : Pickler.pushIValue reg p k with
    | mk p1 r =>
      rw [hq] at hp
      cases r with
      | error e => simp at hp
      | ok _ =>
        simp only at hp
        cases hq2 : Pickler.pushIValue reg p1 v with
        | mk p2 r2 =>
          rw [hq2] at hp
          cases r2 with
          | error e => simp at hp
          | ok _ =>
            simp only at hp
            have ih1 := Pickler.pushIValue_emits reg k p p1 hw hq hf.1.1
            have ih2 := Pickler.pushIValue_emits reg v p1 p2 ih1.1 hq2 hf.1.2
            have ih3 := Pickler.pushItems_emits reg kvs p2 p' ih2.1 hp hf.2
            exact ((ih1.trans ih2).trans ih3).weaken
              (by intro cr h; simpa [resolvedItems, flatItems, Bool.and_assoc] using h)
end

/-! ## The same buffer with a smaller length -/

@[simp] theorem Unpickler.withSize_reader (u : Unpickler Nat) (data : List Byte) (size : Nat) :
    (u.withSize data size).reader = memReader data size := rfl
@[simp] theorem Unpickler.withSize_src (u : Unpickler Nat) (data : List Byte) (size : Nat) :
    (u.withSize data size).src = u.src := rfl
@[simp] theorem Unpickler.withSize_stack (u : Unpickler Nat) (data : List Byte) (size : Nat) :
    (u.withSize data size).stack = u.stack := rfl
@[simp] theorem Unpickler.withSize_memo (u : Unpickler Nat) (data : List Byte) (size : Nat) :
    (u.withSize data size).memo = u.memo := rfl
@[simp] theorem Unpickler.withSize_tensors (u : Unpickler Nat) (data : List Byte) (size : Nat) :
    (u.withSize data size).tensors = u.tensors := rfl
@[simp] theorem Unpickler.withSize_class_resolver (u : Unpickler Nat) (data : List Byte)
    (size : Nat) : (u.withSize data size).class_resolver = u.class_resolver := rfl

theorem Unpickler.readBytes_reader {ρ : Type} (u u1 : Unpickler ρ) (n : Nat) (bs : List Byte)
    (h : u.readBytes n = .ok (bs, u1)) : u1.reader = u.reader := by
  unfold Unpickler.readBytes at h
  simp only at h
  split at h
  · cases h
    rfl
  · cases h

theorem Unpickler.readWord_reader {ρ : Type} (u u1 : Unpickler ρ) (n : Nat)
    (h : u.readWord = .ok (n, u1)) : u1.reader = u.reader := by
  unfold Unpickler.readWord at h
  split at h
  · next bs u2 hb =>
    cases h
    exact Unpickler.readBytes_reader u _ _ bs hb
  · cases h

theorem Unpickler.readString_reader {ρ : Type} (u u1 : Unpickler ρ) (s : List Byte)
    (h : u.readString = .ok (s, u1)) : u1.reader = u.reader := by
  unfold Unpickler.readString at h
  split at h
  · next len u2 hb =>
    rw [Unpickler.readBytes_reader u2 _ _ s h, Unpickler.readWord_reader u _ _ hb]
  · cases h

theorem Unpickler.readTag_reader {ρ : Type} (u u1 : Unpickler ρ) (t : TypeTag)
    (h : u.readTag = .ok (t, u1)) : u1.reader = u.reader := by
  unfold Unpickler.readTag at h
  split at h
  · next m u2 hb =>
    split at h
    · next n u3 hc =>
      cases h
      rw [Unpickler.readString_reader u2 _ _ hc, Unpickler.readString_reader u _ _ hb]
    · cases h
  · cases h

theorem Unpickler.readOpCode_reader {ρ : Type} (u u1 : Unpickler ρ) (op : Opcode)
    (h : u.readOpCode = .ok (op, u1)) : u1.reader = u.reader := by
  unfold Unpickler.readOpCode at h
  split at h
  · next b u2 hb =>
    split at h
    · cases h
      exact Unpickler.readBytes_reader u _ _ _ hb
    · cases h
  · cases h
  · cases h

theorem Unpickler.exec_reader {ρ : Type} (u u1 : Unpickler ρ) (op : Opcode)
    (h : u.exec op = .next u1) : u1.reader = u.reader := by
  cases op <;> simp only [Unpickler.exec] at h
  · cases h
  · split at h <;> cases h
  · cases h; rfl
  · cases h; rfl
  · cases h; rfl
  · cases h; rfl
  · split at h
    · next n u2 hb => cases h; exact Unpickler.readWord_reader u u2 _ hb
    · cases h
  · split at h
    · next n u2 hb => cases h; exact Unpickler.readWord_reader u u2 _ hb
    · cases h
  · split at h
    · next n u2 hb => cases h; exact Unpickler.readString_reader u u2 _ hb
    · cases h
  · split at h
    · cases h; rfl
    · cases h
  · split at h
    · split at h
      · cases h; rfl
      · cases h
    · cases h
  · split at h
    · next tag u2 hb =>
      split at h
      · split at h
        · cases h; exact Unpickler.readTag_reader u u2 _ hb
        · cases h
      · cases h
    · cases h
  · split at h
    · cases h; rfl
    · cases h
  · split at h
    · next n u2 hb =>
      split at h
      · cases h; exact Unpickler.readWord_reader u u2 _ hb
      · cases h
    · cases h
  · split at h
    · next n u2 hb =>
      split at h
      · cases h; exact Unpickler.readWord_reader u u2 _ hb
      · cases h
    · cases h

theorem Unpickler.step_reader {ρ : Type} (u u1 : Unpickler ρ) (h : u.step = .next u1) :
    u1.reader = u.reader := by
  unfold Unpickler.step at h
  split at h
  · next op u2 hb =>
    rw [Unpickler.exec_reader u2 u1 op h, Unpickler.readOpCode_reader u _ _ hb]
  · cases h

theorem Unpickler.readBytes_restrict (u : Unpickler Nat) (data : List Byte) (s1 s2 n : Nat)
    (h12 : s1 ≤ s2) (hr : u.reader = memReader data s2) :
    (u.withSize data s1).readBytes n = .error .streamCorrupt ∨
    ((u.withSize data s1).readBytes n = resized data s1 (u.readBytes n) ∧
      (n = 0 ∨ u.src + n ≤ s1)) := by
  rw [Unpickler.readBytes_mem u data s2 n hr,
    Unpickler.readBytes_mem (u.withSize data s1) data s1 n rfl]
  by_cases h1 : n = 0 ∨ u.src + n ≤ s1
  · right
    have h2 : n = 0 ∨ u.src + n ≤ s2 := by omega
    simp only [Unpickler.withSize_src, h1, h2, if_true, resized]
    exact ⟨rfl, trivial⟩
  · left
    simp [h1]

theorem Unpickler.readWord_restrict (u : Unpickler Nat) (data : List Byte) (s1 s2 : Nat)
    (h12 : s1 ≤ s2) (hr : u.reader = memReader data s2) :
    (u.withSize data s1).readWord = .error .streamCorrupt ∨
    (u.withSize data s1).readWord = resized data s1 u.readWord := by
  unfold Unpickler.readWord
  rcases Unpickler.readBytes_restrict u data s1 s2 wordBytes h12 hr with h | ⟨h, _⟩
  · left
    rw [h]
  · right
    rw [h]
    cases u.readBytes wordBytes with
    | error e => rfl
    | ok r => rfl

theorem Unpickler.readString_restrict (u : Unpickler Nat) (data : List Byte) (s1 s2 : Nat)
    (h12 : s1 ≤ s2) (hr : u.reader = memReader data s2) :
    (u.withSize data s1).readString = .error .streamCorrupt ∨
    (u.withSize data s1).readString = resized data s1 u.readString := by
  unfold Unpickler.readString
  rcases Unpickler.readWord_restrict u data s1 s2 h12 hr with h | h
  · left
    rw [h]
  · rw [h]
    cases hw : u.readWord with
    | error e => right; rfl
    | ok r =>
      obtain ⟨len, u1⟩ := r
      have hr1 : u1.reader = memReader data s2 := by
        rw [Unpickler.readWord_reader u u1 len hw, hr]
      rcases Unpickler.readBytes_restrict u1 data s1 s2 len h12 hr1 with h2 | ⟨h2, _⟩
      · left
        simpa [resized] using h2
      · right
        simpa [resized] using h2

theorem Unpickler.readTag_restrict (u : Unpickler Nat) (data : List Byte) (s1 s2 : Nat)
    (h12 : s1 ≤ s2) (hr : u.reader = memReader data s2) :
    (u.withSize data s1).readTag = .error .streamCorrupt ∨
    (u.withSize data s1).readTag = resized data s1 u.readTag := by
  unfold Unpickler.readTag
  rcases Unpickler.readString_restrict u data s1 s2 h12 hr with h | h
  · left
    rw [h]
  · rw [h]
    cases hw : u.readString with
    | error e => right; rfl
    | ok r =>
      obtain ⟨m, u1⟩ := r
      have hr1 : u1.reader = memReader data s2 := by
        rw [Unpickler.readString_reader u u1 m hw, hr]
      rcases Unpickler.readString_restrict u1 data s1 s2 h12 hr1 with h2 | h2
      · left
        simp only [resized, h2]
      · right
        simp only [resized, h2]
        cases u1.readString with
        | error e => rfl
        | ok r2 => rfl

theorem Unpickler.readOpCode_restrict (u : Unpickler Nat) (data : List Byte) (s1 s2 : Nat)
    (h12 : s1 ≤ s2) (hr : u.reader = memReader data s2) :
    (u.withSize data s1).readOpCode = .error .streamCorrupt ∨
    ((u.withSize data s1).readOpCode = resized data s1 u.readOpCode ∧ u.src + 1 ≤ s1) := by
  unfold Unpickler.readOpCode
  rcases Unpickler.readBytes_restrict u data s1 s2 1 h12 hr with h | ⟨h, hs⟩
  · left
    rw [h]
  · right
    rw [h]
    refine ⟨?_, by omega⟩
    cases u.readBytes 1 with
    | error e => rfl
    | ok r =>
      obtain ⟨bs, u1⟩ := r
      cases bs with
      | nil => rfl
      | cons b t =>
        cases t with
        | nil =>
          simp only [resized]
          cases Opcode.ofByte b <;> rfl
        | cons _ _ => rfl

theorem Unpickler.exec_restrict (u : Unpickler Nat) (data : List Byte) (s1 s2 : Nat)
    (h12 : s1 ≤ s2) (hr : u.reader = memReader data s2) (op : Opcode) :
    (u.withSize data s1).exec op = .fail .streamCorrupt ∨
    (u.withSize data s1).exec op = (u.exec op).resized data s1 := by
  cases op
  case proto => right; rfl
  case stop =>
    right
    simp only [Unpickler.exec, Unpickler.withSize_stack]
    cases u.stack with
    | nil => rfl
    | cons e es => cases e <;> rfl
  case mark => right; rfl
  case pushNone => right; rfl
  case pushTrue => right; rfl
  case pushFalse => right; rfl
  case pushInt =>
    simp only [Unpickler.exec]
    rcases Unpickler.readWord_restrict u data s1 s2 h12 hr with h | h
    · left; rw [h]
    · right
      rw [h]
      cases u.readWord with
      | error e => rfl
      | ok r => rfl
  case pushDouble =>
    simp only [Unpickler.exec]
    rcases Unpickler.readWord_restrict u data s1 s2 h12 hr with h | h
    · left; rw [h]
    · right
      rw [h]
      cases u.readWord with
      | error e => rfl
      | ok r => rfl
  case pushString =>
    simp only [Unpickler.exec]
    rcases Unpickler.readString_restrict u data s1 s2 h12 hr with h | h
    · left; rw [h]
    · right
      rw [h]
      cases u.readString with
      | error e => rfl
      | ok r => rfl
  case buildList =>
    right
    simp only [Unpickler.exec, Unpickler.withSize_stack]
    cases popToMark u.stack with
    | none => rfl
    | some r => rfl
  case buildDict =>
    right
    simp only [Unpickler.exec, Unpickler.withSize_stack]
    cases popToMark u.stack with
    | none => rfl
    | some r =>
      simp only
      cases pairUp r.1 <;> rfl
  case buildObject =>
    simp only [Unpickler.exec]
    rcases Unpickler.readTag_restrict u data s1 s2 h12 hr with h | h
    · left; rw [h]
    · right
      rw [h]
      cases u.readTag with
      | error e => rfl
      | ok r =>
        obtain ⟨tag, u1⟩ := r
        simp only [resized, Unpickler.resolve, Unpickler.withSize_class_resolver,
          Unpickler.withSize_stack]
        cases resolveTag u1.class_resolver tag with
        | none => rfl
        | some d =>
          simp only
          cases popToMark u1.stack <;> rfl
  case memoBind =>
    right
    simp only [Unpickler.exec, Unpickler.withSize_stack]
    cases u.stack with
    | nil => rfl
    | cons e es => cases e <;> rfl
  case backRef =>
    simp only [Unpickler.exec]
    rcases Unpickler.readWord_restrict u data s1 s2 h12 hr with h | h
    · left; rw [h]
    · right
      rw [h]
      cases u.readWord with
      | error e => rfl
      | ok r =>
        obtain ⟨i, u1⟩ := r
        simp only [resized, Unpickler.withSize_memo]
        cases u1.memo[i]? <;> rfl
  case tensorRef =>
    simp only [Unpickler.exec]
    rcases Unpickler.readWord_restrict u data s1 s2 h12 hr with h | h
    · left; rw [h]
    · right
      rw [h]
      cases u.readWord with
      | error e => rfl
      | ok r =>
        obtain ⟨i, u1⟩ := r
        simp only [resized, Unpickler.withSize_tensors]
        cases u1.tensors i <;> rfl

theorem Unpickler.step_restrict (u : Unpickler Nat) (data : List Byte) (s1 s2 : Nat)
    (h12 : s1 ≤ s2) (hr : u.reader = memReader data s2) :
    (u.withSize data s1).step = .fail .streamCorrupt ∨
    ((u.withSize data s1).step = u.step.resized data s1 ∧ u.src + 1 ≤ s1) := by
  unfold Unpickler.step
  rcases Unpickler.readOpCode_restrict u data s1 s2 h12 hr with h | ⟨h, hs⟩
  · left; rw [h]
  · rw [h]
    cases hop : u.readOpCode with
    | error e => right; exact ⟨rfl, hs⟩
    | ok r =>
      obtain ⟨op, u1⟩ := r
      have hr1 : u1.reader = memReader data s2 := by
        rw [Unpickler.readOpCode_reader u u1 op hop, hr]
      simp only [resized]
      rcases Unpickler.exec_restrict u1 data s1 s2 h12 hr1 op with h2 | h2
      · left; exact h2
      · right; exact ⟨h2, hs⟩

theorem Unpickler.readBytes_adv (u u1 : Unpickler Nat) (data : List Byte) (size n : Nat)
    (bs : List Byte) (hr : u.reader = memReader data size) (h : u.readBytes n = .ok (bs, u1)) :
    u1 = u.adv n := by
  rw [Unpickler.readBytes_mem u data size n hr] at h
  split at h
  · simp only [Except.ok.injEq, Prod.mk.injEq] at h
    exact h.2.symm
  · cases h

theorem Unpickler.readOpCode_src (u u1 : Unpickler Nat) (data : List Byte) (size : Nat)
    (op : Opcode) (hr : u.reader = memReader data size) (h : u.readOpCode = .ok (op, u1)) :
    u1.src = u.src + 1 := by
  unfold Unpickler.readOpCode at h
  split at h
  · next b u2 hb =>
    have := Unpickler.readBytes_adv u u2 data size 1 _ hr hb
    subst this
    split at h
    · cases h; rfl
    · cases h
  · cases h
  · cases h

theorem Unpickler.step_done_src (u u1 : Unpickler Nat) (data : List Byte) (size : Nat)
    (v : IValue) (hr : u.reader = memReader data size) (h : u.step = .done v u1) :
    u1.src = u.src + 1 := by
  unfold Unpickler.step at h
  split at h
  · next op u2 hop =>
    have hsrc := Unpickler.readOpCode_src u u2 data size op hr hop
    cases op <;> simp only [Unpickler.exec] at h
    case stop =>
      split at h
      · cases h; exact hsrc
      · cases h
    all_goals (repeat' split at h) <;> cases h
  · cases h

/-- Decoding the same buffer with a smaller length: the turn that would leave the
length fails with StreamCorrupt; a run that ends at the terminator has read no
byte past the smaller length. -/
theorem Unpickler.run_restrict (data : List Byte) (s1 s2 : Nat) (h12 : s1 ≤ s2) :
    ∀ (fuel : Nat) (u : Unpickler Nat), u.reader = memReader data s2 →
      ∀ v u1, Unpickler.run fuel u = some (.ok (v, u1)) →
        Unpickler.run fuel (u.withSize data s1) = some (.error .streamCorrupt) ∨
          u1.src ≤ s1 := by
  intro fuel
  induction fuel with
  | zero => intro u _ v u1 h; simp [Unpickler.run] at h
  | succ fuel ih =>
    intro u hr v u1 h
    simp only [Unpickler.run] at h ⊢
    rcases Unpickler.step_restrict u data s1 s2 h12 hr with hs | ⟨hs, hle⟩
    · left; rw [hs]
    · rw [hs]
      cases hst : u.step with
      | next u2 =>
        rw [hst] at h
        simp only [Step.resized] at h ⊢
        exact ih u2 (by rw [Unpickler.step_reader u u2 hst, hr]) v u1 h
      | done w u2 =>
        rw [hst] at h
        simp only [Option.some.injEq, Except.ok.injEq, Prod.mk.injEq] at h
        right
        rw [← h.2, Unpickler.step_done_src u u2 data s2 w hr hst]
        exact hle
      | fail e =>
        rw [hst] at h
        simp at h

/-! ## The outcome of `pushIValue` and the chunks it passes to the sink -/

mutual
/-- The method `pushIValue` fails exactly on a value with an object type that has no
strategy, whatever the pickler. -/
theorem Pickler.pushIValue_result (reg : Registry) :
    ∀ (v : IValue) {σ : Type} (p : Pickler σ),
      (Pickler.pushIValue reg p v).2 =
        if v.supported reg = true then .ok () else .error .typeUnsupported
  | .none, _, p => by simp [Pickler.pushIValue, IValue.supported]
  | .bool _, _, p => by simp [Pickler.pushIValue, IValue.supported]
  | .int _, _, p => by simp [Pickler.pushIValue, IValue.supported]
  | .double _, _, p => by simp [Pickler.pushIValue, IValue.supported]
  | .string _, _, p => by simp [Pickler.pushIValue, IValue.supported]
  | .tensor _, _, p => by simp [Pickler.pushIValue, IValue.supported]
  | .list xs, _, p => by
    have ih := Pickler.pushValues_result reg xs (p.push [Opcode.mark.toByte])
    simp only [Pickler.pushIValue, IValue.supported]
    cases hq : Pickler.pushValues reg (p.push [Opcode.mark.toByte]) xs with
    | mk p1 r =>
      rw [hq] at ih
      simp only at ih
      cases r <;> by_cases hs : supportedAll reg xs = true <;> simp_all
  | .dict kvs, _, p => by
    have ih := Pickler.pushItems_result reg kvs (p.push [Opcode.mark.toByte])
    simp only [Pickler.pushIValue, IValue.supported]
    cases hq : Pickler.pushItems reg (p.push [Opcode.mark.toByte]) kvs with
    | mk p1 r =>
      rw [hq] at ih
      simp only at ih
      cases r <;> by_cases hs : supportedItems reg kvs = true <;> simp_all
  | .object tag fields, _, p => by
    have ih := Pickler.pushValues_result reg fields (p.push [Opcode.mark.toByte])
    simp only [Pickler.pushIValue, IValue.supported]
    by_cases hreg : reg tag = true
    · simp only [hreg, if_true, Bool.true_and]
      cases hq : Pickler.pushValues reg (p.push [Opcode.mark.toByte]) fields with
      | mk p1 r =>
        rw [hq] at ih
        simp only at ih
        cases r <;> by_cases hs : supportedAll reg fields = true <;> simp_all
    · simp [hreg]
/-- The outcome of `pushValues`. -/
theorem Pickler.pushValues_result (reg : Registry) :
    ∀ (xs : List IValue) {σ : Type} (p : Pickler σ),
      (Pickler.pushValues reg p xs).2 =
        if supportedAll reg xs = true then .ok () else .error .typeUnsupported
  | [], _, p => by simp [Pickler.pushValues, supportedAll]
  | x :: xs, _, p => by
    have ih1 := Pickler.pushIValue_result reg x p
    simp only [Pickler.pushValues, supportedAll]
    cases hq : Pickler.pushIValue reg p x with
    | mk p1 r =>
      rw [hq] at ih1
      simp only at ih1
      subst ih1
      by_cases hx : x.supported reg = true
      · simp only [hx, if_true, Bool.true_and]
        exact Pickler.pushValues_result reg xs p1
      · simp [hx]
/-- The outcome of `pushItems`. -/
theorem Pickler.pushItems_result (reg : Registry) :
    ∀ (kvs : List (IValue × IValue)) {σ : Type} (p : Pickler σ),
      (Pickler.pushItems reg p kvs).2 =
        if supportedItems reg kvs = true then .ok () else .error .typeUnsupported
  | [], _, p => by simp [Pickler.pushItems, supportedItems]
  | (k, v) :: kvs, _, p => by
    have ih1 := Pickler.pushIValue_result reg k p
    simp only [Pickler.pushItems, supportedItems]
    cases hq : Pickler.pushIValue reg p k with
    | mk p1 r =>
      rw [hq] at ih1
      simp only at ih1
      subst ih1
      by_cases hk : k.supported reg = true
      · simp only [hk, if_true, Bool.true_and]
        have ih2 := Pickler.pushIValue_result reg v p1
        cases hq2 : Pickler.pushIValue reg p1 v with
        | mk p2 r2 =>
          rw [hq2] at ih2
          simp only at ih2
          subst ih2
          by_cases hv : v.supported reg = true
          · simp only [hv, if_true, Bool.true_and]
            exact Pickler.pushItems_result reg kvs p2
          · simp [hv]
      · simp [hk]
end

theorem Mirrors.step {σ : Type} {s0 : σ} {p : Pickler σ} {q : Pickler (List (List Byte))}
    (h : Mirrors s0 p q) (bs : List Byte) : Mirrors s0 (p.push bs) (q.push bs) := by
  obtain ⟨h1, h2, h3, h4⟩ := h
  refine ⟨h1, ?_, h3, h4⟩
  simp [h1, h2, logSink, List.foldl_append]

theorem Mirrors.pushTensor {σ : Type} {s0 : σ} {p : Pickler σ}
    {q : Pickler (List (List Byte))} (h : Mirrors s0 p q) (t : Tensor) :
    Mirrors s0 (p.pushTensor t) (q.pushTensor t) := by
  obtain ⟨h1, h2, h3, h4⟩ := h
  cases htt : p.tensor_table with
  | some table =>
    have hq : q.tensor_table = some table := by rw [← h3, htt]
    simp only [Pickler.pushTensor, htt, hq]
    refine ⟨h1, ?_, rfl, h4⟩
    simp [h1, h2, logSink, List.foldl_append]
  | none =>
    have hq : q.tensor_table = none := by rw [← h3, htt]
    simp only [Pickler.pushTensor, htt, hq, ← h4]
    refine ⟨h1, ?_, by simp [htt, hq], rfl⟩
    simp [h1, h2, logSink, List.foldl_append]

mutual
/-- Every sink is passed the same chunks in the same order. -/
theorem Pickler.pushIValue_mirrors (reg : Registry) {σ : Type} (s0 : σ) :
    ∀ (v : IValue) (p : Pickler σ) (q : Pickler (List (List Byte))), Mirrors s0 p q →
      Mirrors s0 (Pickler.pushIValue reg p v).1 (Pickler.pushIValue reg q v).1 ∧
      (Pickler.pushIValue reg p v).1.writer = p.writer
  | .none, p, q, h => ⟨h.step _, rfl⟩
  | .bool _, p, q, h => ⟨h.step _, rfl⟩
  | .int _, p, q, h => ⟨h.step _, rfl⟩
  | .double _, p, q, h => ⟨h.step _, rfl⟩
  | .string _, p, q, h => ⟨h.step _, rfl⟩
  | .tensor t, p, q, h => by
    refine ⟨h.pushTensor t, ?_⟩
    simp only [Pickler.pushIValue, Pickler.pushTensor]
    cases p.tensor_table <;> rfl
  | .list xs, p, q, h => by
    have ih := Pickler.pushValues_mirrors reg s0 xs _ _ (h.step [Opcode.mark.toByte])
    have r1 := Pickler.pushValues_result reg xs (p.push [Opcode.mark.toByte])
    have r2 := Pickler.pushValues_result reg xs (q.push [Opcode.mark.toByte])
    simp only [Pickler.pushIValue]
    cases hp : Pickler.pushValues reg (p.push [Opcode.mark.toByte]) xs with
    | mk p1 rp =>
      cases hq : Pickler.pushValues reg (q.push [Opcode.mark.toByte]) xs with
      | mk q1 rq =>
        rw [hp] at ih r1
        rw [hq] at ih r2
        simp only at ih r1 r2
        have hrr : rp = rq := r1.trans r2.symm
        subst hrr
        cases rp with
        | ok _ => exact ⟨ih.1.step _, ih.2⟩
        | error e => exact ih
  | .dict kvs, p, q, h => by
    have ih := Pickler.pushItems_mirrors reg s0 kvs _ _ (h.step [Opcode.mark.toByte])
    have r1 := Pickler.pushItems_result reg kvs (p.push [Opcode.mark.toByte])
    have r2 := Pickler.pushItems_result reg kvs (q.push [Opcode.mark.toByte])
    simp only [Pickler.pushIValue]
    cases hp : Pickler.pushItems reg (p.push [Opcode.mark.toByte]) kvs with
    | mk p1 rp =>
      cases hq : Pickler.pushItems reg (q.push [Opcode.mark.toByte]) kvs with
      | mk q1 rq =>
        rw [hp] at ih r1
        rw [hq] at ih r2
        simp only at ih r1 r2
        have hrr : rp = rq := r1.trans r2.symm
        subst hrr
        cases rp with
        | ok _ => exact ⟨ih.1.step _, ih.2⟩
        | error e => exact ih
  | .object tag fields, p, q, h => by
    have ih := Pickler.pushValues_mirrors reg s0 fields _ _ (h.step [Opcode.mark.toByte])
    have r1 := Pickler.pushValues_result reg fields (p.push [Opcode.mark.toByte])
    have r2 := Pickler.pushValues_result reg fields (q.push [Opcode.mark.toByte])
    simp only [Pickler.pushIValue]
    by_cases hreg : reg tag = true
    · simp only [hreg, if_true]
      cases hp : Pickler.pushValues reg (p.push [Opcode.mark.toByte]) fields with
      | mk p1 rp =>
        cases hq : Pickler.pushValues reg (q.push [Opcode.mark.toByte]) fields with
        | mk q1 rq =>
          rw [hp] at ih r1
          rw [hq] at ih r2
          simp only at ih r1 r2
          have hrr : rp = rq := r1.trans r2.symm
          subst hrr
          cases rp with
          | ok _ => exact ⟨ih.1.step _, ih.2⟩
          | error e => exact ih
    · simp only [hreg]
      exact ⟨h, rfl⟩
/-- The chunks of `pushValues`. -/
theorem Pickler.pushValues_mirrors (reg : Registry) {σ : Type} (s0 : σ) :
    ∀ (xs : List IValue) (p : Pickler σ) (q : Pickler (List (List Byte))), Mirrors s0 p q →
      Mirrors s0 (Pickler.pushValues reg p xs).1 (Pickler.pushValues reg q xs).1 ∧
      (Pickler.pushValues reg p xs).1.writer = p.writer
  | [], p, q, h => ⟨h, rfl⟩
  | x :: xs, p, q, h => by
    have ih1 := Pickler.pushIValue_mirrors reg s0 x p q h
    have r1 := Pickler.pushIValue_result reg x p
    have r2 := Pickler.pushIValue_result reg x q
    simp only [Pickler.pushValues]
    cases hp : Pickler.pushIValue reg p x with
    | mk p1 rp =>
      cases hq : Pickler.pushIValue reg q x with
      | mk q1 rq =>
        rw [hp] at ih1 r1
        rw [hq] at ih1 r2
        simp only at ih1 r1 r2
        have hrr : rp = rq := r1.trans r2.symm
        subst hrr
        cases rp with
        | ok _ =>
          have ih2 := Pickler.pushValues_mirrors reg s0 xs p1 q1 ih1.1
          exact ⟨ih2.1, ih2.2.trans ih1.2⟩
        | error e => exact ih1
/-- The chunks of `pushItems`. -/
theorem Pickler.pushItems_mirrors (reg : Registry) {σ : Type} (s0 : σ) :
    ∀ (kvs : List (IValue × IValue)) (p : Pickler σ) (q : Pickler (List (List Byte))),
      Mirrors s0 p q →
      Mirrors s0 (Pickler.pushItems reg p kvs).1 (Pickler.pushItems reg q kvs).1 ∧
      (Pickler.pushItems reg p kvs).1.writer = p.writer
  | [], p, q, h => ⟨h, rfl⟩
  | (k, v) :: kvs, p, q, h => by
    have ih1 := Pickler.pushIValue_mirrors reg s0 k p q h
    have r1 := Pickler.pushIValue_result reg k p
    have r2 := Pickler.pushIValue_result reg k q
    simp only [Pickler.pushItems]
    cases hp : Pickler.pushIValue reg p k with
    | mk p1 rp =>
      cases hq : Pickler.pushIValue reg q k with
      | mk q1 rq =>
        rw [hp] at ih1 r1
        rw [hq] at ih1 r2
        simp only at ih1 r1 r2
        have hrr : rp = rq := r1.trans r2.symm
        subst hrr
        cases rp with
        | ok _ =>
          simp only
          have ih2 := Pickler.pushIValue_mirrors reg s0 v p1 q1 ih1.1
          have r3 := Pickler.pushIValue_result reg v p1
          have r4 := Pickler.pushIValue_result reg v q1
          cases hp2 : Pickler.pushIValue reg p1 v with
          | mk p2 rp2 =>
            cases hq2 : Pickler.pushIValue reg q1 v with
            | mk q2 rq2 =>
              rw [hp2] at ih2 r3
              rw [hq2] at ih2 r4
              simp only at ih2 r3 r4
              have hrr2 : rp2 = rq2 := r3.trans r4.symm
              subst hrr2
              cases rp2 with
              | ok _ =>
                have ih3 := Pickler.pushItems_mirrors reg s0 kvs p2 q2 ih2.1
                exact ⟨ih3.1, ih3.2.trans (ih2.2.trans ih1.2)⟩
              | error e => exact ⟨ih2.1, ih2.2.trans ih1.2⟩
        | error e => exact ih1
end

/-! ## Tensor-table mode: `pickle` and `unpickle` -/

theorem Unpickler.readHeader_ok (u : Unpickler Nat) (data : List Byte) (size : Nat)
    (rest : List Byte) (hr : u.reader = memReader data size)
    (hd : data.drop u.src = Opcode.proto.toByte :: protocolId :: rest)
    (hs : u.src + 2 ≤ size) : u.readHeader = .ok (u.adv 2) := by
  unfold Unpickler.readHeader
  rw [Unpickler.readOpCode_ok u data size .proto _ hr hd (by omega)]
  have hd1 : data.drop (u.adv 1).src = [protocolId] ++ rest := by
    have := drop_adv u data [Opcode.proto.toByte] (protocolId :: rest) (by simpa using hd)
    simpa using this
  have h := Unpickler.readBytes_ok (u.adv 1) data size [protocolId] rest (by simpa using hr)
    hd1 (by simp; omega)
  simp only [List.length_singleton] at h
  simp only [h, if_true, Unpickler.adv_adv]

theorem Unpickler.run_stop (u : Unpickler Nat) (data : List Byte) (size : Nat)
    (rest : List Byte) (v : IValue) (below : List Entry) (fuel : Nat)
    (hr : u.reader = memReader data size)
    (hd : data.drop u.src = Opcode.stop.toByte :: rest) (hs : u.src + 1 ≤ size)
    (hst : u.stack = Entry.val v :: below) :
    Unpickler.run (fuel + 1) u = some (.ok (v, u.adv 1)) := by
  simp only [Unpickler.run]
  rw [Unpickler.step_op u data size .stop rest hr hd hs]
  simp only [Unpickler.exec, Unpickler.adv_stack, hst]

/-- Decoding the whole stream: header, bytes that decode to one value, terminator. -/
theorem Unpickler.parse_stream (bs : List Byte) (n : Nat) (table : List Tensor)
    (ok : Option ClassResolver → Bool) (v : IValue) (hn : n ≤ bs.length)
    (hdec : DecodesTo bs n table ok [v]) (u : Unpickler Nat) (data : List Byte)
    (hdata : data = [Opcode.proto.toByte, protocolId] ++ bs ++ [Opcode.stop.toByte])
    (hr : u.reader = memReader data data.length) (hsrc : u.src = 0)
    (ha : Agrees u.tensors table) (hl : table.length ≤ 2 ^ 64)
    (hok : ok u.class_resolver = true) (fuel : Nat) (hfuel : data.length ≤ fuel) :
    ∃ u1, u.parse fuel = some (.ok (v, u1)) ∧ u1.src = data.length := by
  have hlen : data.length = bs.length + 3 := by
    rw [hdata]
    simp
  unfold Unpickler.parse
  rw [Unpickler.readHeader_ok u data data.length (bs ++ [Opcode.stop.toByte]) hr
    (by rw [hsrc, hdata]; simp) (by omega)]
  simp only
  have hd2 : data.drop (u.adv 2).src = bs ++ [Opcode.stop.toByte] := by
    rw [Unpickler.adv_src, hsrc, hdata]
    simp
  obtain ⟨k, hk⟩ : ∃ k, fuel = (k + 1) + n := ⟨fuel - n - 1, by omega⟩
  rw [hk, hdec (u.adv 2) data data.length [Opcode.stop.toByte] (k + 1) (by simpa using hr) hd2
    (by simp; omega) ha hl hok]
  have hd3 : data.drop (((u.adv 2).adv bs.length).pushVals [v]).src =
      Opcode.stop.toByte :: [] := drop_adv (u.adv 2) data bs _ hd2
  refine ⟨_, Unpickler.run_stop _ data data.length [] v u.stack k (by simpa using hr) hd3
    (by simp; omega) (by simp), ?_⟩
  simp
  omega

theorem pickle_writer_eq {σ : Type} (reg : Registry) (writer : σ → List Byte → σ) (sink : σ)
    (v : IValue) (table : Option (List Tensor)) :
    pickle_writer reg writer sink v table =
      if v.supported reg = true then
        { sink := ((Pickler.new writer sink table).protocol.pushIValue reg v).1.stop.sink,
          tensor_table :=
            ((Pickler.new writer sink table).protocol.pushIValue reg v).1.tensor_table,
          result := .ok () }
      else
        { sink := ((Pickler.new writer sink table).protocol.pushIValue reg v).1.sink,
          tensor_table :=
            ((Pickler.new writer sink table).protocol.pushIValue reg v).1.tensor_table,
          result := .error .typeUnsupported } := by
  have hres := Pickler.pushIValue_result reg v (Pickler.new writer sink table).protocol
  unfold pickle_writer
  simp only
  cases hq : Pickler.pushIValue reg (Pickler.new writer sink table).protocol v with
  | mk p1 r =>
    rw [hq] at hres
    simp only at hres
    by_cases hs : v.supported reg = true
    · simp only [hs, if_true] at hres ⊢
      subst hres
      rfl
    · simp only [hs, if_false] at hres ⊢
      subst hres
      rfl

theorem pickle_eq (reg : Registry) (v : IValue) (table : Option (List Tensor)) :
    pickle reg v table =
      if v.supported reg = true then
        { result := .ok (((Pickler.new appendSink [] table).protocol.pushIValue reg v).1.sink ++
            [Opcode.stop.toByte]),
          tensor_table :=
            ((Pickler.new appendSink [] table).protocol.pushIValue reg v).1.tensor_table }
      else
        { result := .error .typeUnsupported,
          tensor_table :=
            ((Pickler.new appendSink [] table).protocol.pushIValue reg v).1.tensor_table } := by
  unfold pickle
  simp only
  have h := pickle_writer_eq reg appendSink [] v table
  unfold appendSink at h
  rw [h]
  have hw := (Pickler.pushIValue_mirrors reg ([] : List Byte) v
    (Pickler.new appendSink [] table).protocol (Pickler.new logSink [] table).protocol
    ⟨rfl, rfl, rfl, rfl⟩).2
  by_cases hs : v.supported reg = true
  · simp only [hs, if_true]
    congr 2
    show Pickler.writer _ _ _ = _
    unfold appendSink at hw
    rw [hw]
    rfl
  · simp only [hs, if_false]
    rfl

theorem Unpickler.readHeader_reader {ρ : Type} (u u1 : Unpickler ρ)
    (h : u.readHeader = .ok u1) : u1.reader = u.reader := by
  unfold Unpickler.readHeader at h
  split at h
  · next u2 hop =>
    split at h
    · next b u3 hb =>
      split at h
      · cases h
        rw [Unpickler.readBytes_reader u2 _ _ _ hb, Unpickler.readOpCode_reader u _ _ hop]
      · cases h
    · cases h
    · cases h
  · cases h
  · cases h

theorem Unpickler.readHeader_restrict (u : Unpickler Nat) (data : List Byte) (s1 s2 : Nat)
    (h12 : s1 ≤ s2) (hr : u.reader = memReader data s2) :
    (u.withSize data s1).readHeader = .error .streamCorrupt ∨
    ∀ u1, u.readHeader = .ok u1 → (u.withSize data s1).readHeader = .ok (u1.withSize data s1) := by
  unfold Unpickler.readHeader
  rcases Unpickler.readOpCode_restrict u data s1 s2 h12 hr with h | ⟨h, _⟩
  · left; rw [h]
  · rw [h]
    cases hop : u.readOpCode with
    | error e => right; intro u1 h1; cases h1
    | ok r =>
      obtain ⟨op, u2⟩ := r
      have hr2 : u2.reader = memReader data s2 := by
        rw [Unpickler.readOpCode_reader u u2 op hop, hr]
      simp only [resized]
      cases op
      case proto =>
        simp only
        rcases Unpickler.readBytes_restrict u2 data s1 s2 1 h12 hr2 with h2 | ⟨h2, _⟩
        · left; rw [h2]
        · right
          rw [h2]
          intro u1 h1
          cases hb : u2.readBytes 1 with
          | error e => rw [hb] at h1; cases h1
          | ok r2 =>
            obtain ⟨bs, u3⟩ := r2
            rw [hb] at h1
            simp only [resized]
            cases bs with
            | nil => cases h1
            | cons b t =>
              cases t with
              | nil =>
                simp only at h1 ⊢
                split at h1
                · next hb2 =>
                  cases h1
                  simp [hb2]
                · cases h1
              | cons _ _ => cases h1
      all_goals (right; intro u1 h1; cases h1)

theorem Unpickler.parse_restrict (data : List Byte) (s1 s2 : Nat) (h12 : s1 ≤ s2)
    (fuel : Nat) (u : Unpickler Nat) (hr : u.reader = memReader data s2) (v : IValue)
    (u1 : Unpickler Nat) (h : u.parse fuel = some (.ok (v, u1))) :
    (u.withSize data s1).parse fuel = some (.error .streamCorrupt) ∨ u1.src ≤ s1 := by
  unfold Unpickler.parse at h ⊢
  cases hh : u.readHeader with
  | error e => rw [hh] at h; cases h
  | ok u2 =>
    rw [hh] at h
    simp only at h
    rcases Unpickler.readHeader_restrict u data s1 s2 h12 hr with h2 | h2
    · left; rw [h2]
    · rw [h2 u2 hh]
      exact Unpickler.run_restrict data s1 s2 h12 fuel u2
        (by rw [Unpickler.readHeader_reader u u2 hh, hr]) v u1 h

theorem tableTensors_agrees (table : List Tensor) : Agrees (tableTensors (some table)) table := by
  intro i t h
  simp [tableTensors, h]

/-- What `pickle` returns on a supported value that fits: header, bytes that decode
to the value against the side-table left behind, terminator. -/
theorem pickle_stream (reg : Registry) (v : IValue) (tt : Option (List Tensor))
    (hsup : v.supported reg = true) (hfit : v.fits = true) :
    ∃ bs n, n ≤ bs.length ∧
      ((Pickler.new appendSink [] tt).protocol.pushIValue reg v).1.sink =
        [Opcode.proto.toByte, protocolId] ++ bs ∧
      DecodesTo bs n ((Pickler.new appendSink [] tt).protocol.pushIValue reg v).1.table
        (fun cr => v.resolved cr) [v] ∧
      ((Pickler.new appendSink [] tt).protocol.pushIValue reg v).1.tensor_table.isSome =
        tt.isSome := by
  have hres := Pickler.pushIValue_result reg v (Pickler.new appendSink [] tt).protocol
  simp only [hsup, if_true] at hres
  have hp : Pickler.pushIValue reg (Pickler.new appendSink [] tt).protocol v =
      (((Pickler.new appendSink [] tt).protocol.pushIValue reg v).1, .ok ()) := by
    rw [← hres]
  obtain ⟨_, h2, _, bs, n, h4, h5, h6⟩ :=
    Pickler.pushIValue_emits reg v _ _ rfl hp hfit
  exact ⟨bs, n, h5, h4, h6, h2⟩

theorem parse_of_pickle (reg : Registry) (class_resolver : Option ClassResolver)
    (v : IValue) (table : List Tensor) (hsup : v.supported reg = true)
    (hfit : v.fits = true) (hres : v.resolved class_resolver = true)
    (hlen : ∀ t, (pickle reg v (some table)).tensor_table = some t → t.length ≤ 2 ^ 64) :
    ∃ bytes, (pickle reg v (some table)).result = .ok bytes ∧
      ∀ fuel, bytes.length ≤ fuel →
        ∃ u1, (Unpickler.new (memReader bytes bytes.length) 0 class_resolver
          (pickle reg v (some table)).tensor_table).parse fuel = some (.ok (v, u1)) ∧
          u1.src = bytes.length := by
  obtain ⟨bs, n, hn, hsink, hdec, hsome⟩ := pickle_stream reg v (some table) hsup hfit
  rw [pickle_eq] at hlen ⊢
  simp only [hsup, if_true] at hlen ⊢
  generalize ((Pickler.new appendSink [] (some table)).protocol.pushIValue reg v).1 = p1
    at hsink hdec hsome hlen ⊢
  refine ⟨_, rfl, ?_⟩
  intro fuel hfuel
  cases htt : p1.tensor_table with
  | none => simp [htt] at hsome
  | some t =>
    have htab : p1.table = t := by simp [Pickler.table, htt]
    rw [htab] at hdec
    exact Unpickler.parse_stream bs n t _ v hn hdec _ _ (by rw [hsink]) rfl rfl
      (tableTensors_agrees t) (hlen t htt) hres fuel hfuel

theorem foldl_append_flatten (chunks : List (List Byte)) (s0 : List Byte) :
    chunks.foldl (fun (data : List Byte) bytes => data ++ bytes) s0 = s0 ++ chunks.flatten := by
  induction chunks generalizing s0 with
  | nil => simp
  | cons c cs ih => simp [ih]

theorem foldl_logSink (chunks : List (List Byte)) (s0 : List (List Byte)) :
    chunks.foldl logSink s0 = s0 ++ chunks := by
  induction chunks generalizing s0 with
  | nil => simp
  | cons c cs ih => simp [ih, logSink]

/-- The sink of `pickle_writer` after the run, for any sink and for the logging sink. -/
theorem pickle_writer_mirrors {σ : Type} (reg : Registry) (writer : σ → List Byte → σ)
    (sink : σ) (v : IValue) (table : Option (List Tensor)) :
    (pickle_writer reg writer sink v table).sink =
      (pickle_writer reg logSink [] v table).sink.foldl writer sink ∧
    (pickle_writer reg writer sink v table).tensor_table =
      (pickle_writer reg logSink [] v table).tensor_table ∧
    (pickle_writer reg writer sink v table).result =
      (pickle_writer reg logSink [] v table).result := by
  have hm := Pickler.pushIValue_mirrors reg sink v (Pickler.new writer sink table).protocol
    (Pickler.new logSink [] table).protocol ⟨rfl, rfl, rfl, rfl⟩
  rw [pickle_writer_eq, pickle_writer_eq reg logSink]
  obtain ⟨⟨_, h2, h3, _⟩, h5⟩ := hm
  have hw : ((Pickler.new logSink [] table).protocol.pushIValue reg v).1.writer = logSink :=
    (Pickler.pushIValue_mirrors reg ([] : List (List Byte)) v
      (Pickler.new logSink [] table).protocol (Pickler.new logSink [] table).protocol
      ⟨rfl, (foldl_logSink _ _).symm ▸ rfl, rfl, rfl⟩).2
  by_cases hs : v.supported reg = true
  · simp only [hs, if_true]
    refine ⟨?_, h3, ?_⟩
    · simp only [Pickler.stop, Pickler.push_sink, h2, h5, hw, logSink, List.foldl_append]
      rfl
    · trivial
  · simp only [hs, if_false]
    refine ⟨?_, h3, ?_⟩
    · rw [h2, h5]
      rfl
    · rfl

/-- The vector of `pickle(V, table)` is the concatenation of the chunks the logging
sink is passed. -/
theorem pickle_result_flatten (reg : Registry) (V : IValue) (table : Option (List Tensor))
    (hsup : V.supported reg = true) :
    (pickle reg V table).result = .ok (pickle_writer reg logSink [] V table).sink.flatten := by
  have hv := pickle_writer_mirrors reg (fun (data : List Byte) bytes => data ++ bytes) []
    V table
  have hres : (pickle_writer reg logSink [] V table).result = .ok () := by
    rw [pickle_writer_eq]
    simp [hsup]
  unfold pickle
  simp only
  rw [hv.2.2, hres]
  simp only
  rw [hv.1, foldl_append_flatten]
  simp

/-- C6: on a value the pickler supports, `pickle(writer, V, table)` returns normally,
its sink is passed, in order, the header chunk of `protocol()`, the chunks of
`pushIValue(V)` and the terminator chunk of `stop()`; any sink sees exactly
these chunks in this order, and the vector that `pickle(V, table)` returns is
their concatenation. -/
theorem pickle_framing {σ : Type} (reg : Registry) (writer : σ → List Byte → σ) (sink : σ)
    (V : IValue) (table : Option (List Tensor)) (hsup : V.supported reg = true) :
    (pickle_writer reg writer sink V table).result = .ok () ∧
    (pickle_writer reg logSink [] V table).sink =
      (Pickler.new logSink [] table).protocol.sink ++
        ((Pickler.new logSink [] table).pushIValue reg V).1.sink ++
        [[Opcode.stop.toByte]] ∧
    (Pickler.new logSink [] table).protocol.sink = [[Opcode.proto.toByte, protocolId]] ∧
    (pickle_writer reg writer sink V table).sink =
      (pickle_writer reg logSink [] V table).sink.foldl writer sink ∧
    (pickle reg V table).result = .ok (pickle_writer reg logSink [] V table).sink.flatten := by
  have hm := pickle_writer_mirrors reg writer sink V table
  have hlog : (pickle_writer reg logSink [] V table).sink =
      (Pickler.new logSink [] table).protocol.sink ++
        ((Pickler.new logSink [] table).pushIValue reg V).1.sink ++
        [[Opcode.stop.toByte]] := by
    rw [pickle_writer_eq]
    simp only [hsup, if_true]
    have h1 := Pickler.pushIValue_mirrors reg
      ((Pickler.new logSink [] table).protocol.sink) V
      (Pickler.new logSink [] table).protocol (Pickler.new logSink [] table)
      ⟨rfl, rfl, rfl, rfl⟩
    obtain ⟨⟨_, h2, _, _⟩, h5⟩ := h1
    simp only [Pickler.stop, Pickler.push_sink, h2, h5]
    show logSink (List.foldl logSink _ _) _ = _
    rw [foldl_logSink]
    rfl
  refine ⟨?_, hlog, rfl, hm.1, pickle_result_flatten reg V table hsup⟩
  rw [pickle_writer_eq]
  simp [hsup]

theorem pickle_framing_witness :
    sampleValue.supported sampleRegistry = true ∧
    (pickle sampleRegistry sampleValue (some [])).result =
      .ok (pickle_writer sampleRegistry logSink [] sampleValue (some [])).sink.flatten :=
  ⟨rfl, (pickle_framing sampleRegistry logSink [] sampleValue (some []) rfl).2.2.2.2⟩

/-- C1: tensor-table mode round trip.  For a value whose object types have a
strategy in the pickler and a descriptor in the class resolver, and which fits
the C++ types, `pickle(V, table)` returns a vector, and, given fuel for as
many opcodes as the vector has bytes, `unpickle(data, size, resolver, table)`
on that vector and on the tensor table that `pickle` has filled returns `V`. -/
theorem unpickle_pickle (reg : Registry) (class_resolver : Option ClassResolver)
    (V : IValue) (table : List Tensor) (hsup : V.supported reg = true)
    (hfit : V.fits = true) (hres : V.resolved class_resolver = true)
    (hlen : ∀ t, (pickle reg V (some table)).tensor_table = some t → t.length ≤ 2 ^ 64) :
    ∃ bytes, (pickle reg V (some table)).result = .ok bytes ∧
      ∀ fuel, bytes.length ≤ fuel →
        unpickle fuel bytes bytes.length class_resolver
          (pickle reg V (some table)).tensor_table = some (.ok V) := by
  obtain ⟨bytes, hb, h⟩ := parse_of_pickle reg class_resolver V table hsup hfit hres hlen
  refine ⟨bytes, hb, ?_⟩
  intro fuel hfuel
  obtain ⟨u1, hp, _⟩ := h fuel hfuel
  simp only [unpickle, unpickle_reader, Unpickler.parse_ivalue, hp]

/-- C7: truncation.  On the vector that `pickle` returns for such a value, with the
tensor table it has filled, `unpickle(data, k, ...)` fails with StreamCorrupt
for every `k` below the length of the vector, that is for every cut before the
terminator; its byte source delivers no byte at or past offset `k`. -/
theorem unpickle_truncated (reg : Registry) (class_resolver : Option ClassResolver)
    (V : IValue) (table : List Tensor) (hsup : V.supported reg = true)
    (hfit : V.fits = true) (hres : V.resolved class_resolver = true)
    (hlen : ∀ t, (pickle reg V (some table)).tensor_table = some t → t.length ≤ 2 ^ 64) :
    ∃ bytes, (pickle reg V (some table)).result = .ok bytes ∧
      ∀ k, k < bytes.length →
        (∀ fuel, bytes.length ≤ fuel →
          unpickle fuel bytes k class_resolver (pickle reg V (some table)).tensor_table =
            some (.error .streamCorrupt)) ∧
        (∀ lens : List Nat, delivered (memReads bytes k 0 lens) <+: bytes.take k) ∧
        (∀ j len, k ≤ j → memReader bytes k j len = { count := 0, copied := [], next := j }) := by
  obtain ⟨bytes, hb, h⟩ := parse_of_pickle reg class_resolver V table hsup hfit hres hlen
  refine ⟨bytes, hb, ?_⟩
  intro k hk
  refine ⟨?_, ?_, fun j len hj => memReader_of_le bytes k j len hj⟩
  · intro fuel hfuel
    obtain ⟨u1, hp, hsrc⟩ := h fuel hfuel
    have hr := Unpickler.parse_restrict bytes k bytes.length (by omega) fuel _ rfl V u1 hp
    rcases hr with hr | hr
    · simp only [unpickle, unpickle_reader, Unpickler.parse_ivalue]
      have : Unpickler.new (memReader bytes k) 0 class_resolver
          (pickle reg V (some table)).tensor_table =
          (Unpickler.new (memReader bytes bytes.length) 0 class_resolver
            (pickle reg V (some table)).tensor_table).withSize bytes k := rfl
      rw [this, hr]
    · omega
  · intro lens
    have := delivered_memReads bytes k lens 0 (by omega)
    simp only [List.take_zero, List.nil_append] at this
    rw [this]
    have hle := memReadsEnd_le bytes k lens 0 (by omega)
    have e : bytes.take (memReadsEnd bytes k 0 lens) =
        (bytes.take k).take (memReadsEnd bytes k 0 lens) := by
      rw [List.take_take, Nat.min_eq_left hle]
    rw [e]
    exact List.take_prefix _ _

theorem sample_table_bound (v : IValue) (t0 : List Tensor) (t1 : List Tensor)
    (h1 : (pickle sampleRegistry v (some t0)).tensor_table = some t1)
    (h2 : t1.length ≤ 2 ^ 64) :
    ∀ t, (pickle sampleRegistry v (some t0)).tensor_table = some t → t.length ≤ 2 ^ 64 := by
  intro t ht
  rw [h1] at ht
  cases ht
  exact h2

theorem unpickle_pickle_witness :
    sampleValue.supported sampleRegistry = true ∧ sampleValue.fits = true ∧
    sampleValue.resolved (some sampleResolver) = true ∧
    ∃ bytes, (pickle sampleRegistry sampleValue (some [])).result = .ok bytes ∧
      ∀ fuel, bytes.length ≤ fuel →
        unpickle fuel bytes bytes.length (some sampleResolver)
          (pickle sampleRegistry sampleValue (some [])).tensor_table = some (.ok sampleValue) :=
  ⟨rfl, by decide, rfl,
    unpickle_pickle sampleRegistry (some sampleResolver) sampleValue [] rfl (by decide) rfl
      (sample_table_bound sampleValue [] [{ payload := [9, 9] }] rfl (by decide))⟩

theorem unpickle_truncated_witness :
    sampleValue.supported sampleRegistry = true ∧ sampleValue.fits = true ∧
    sampleValue.resolved (some sampleResolver) = true ∧
    ∃ bytes, (pickle sampleRegistry sampleValue (some [])).result = .ok bytes ∧
      ∀ k, k < bytes.length → ∀ fuel, bytes.length ≤ fuel →
        unpickle fuel bytes k (some sampleResolver)
          (pickle sampleRegistry sampleValue (some [])).tensor_table =
            some (.error .streamCorrupt) := by
  refine ⟨rfl, by decide, rfl, ?_⟩
  obtain ⟨bytes, hb, h⟩ :=
    unpickle_truncated sampleRegistry (some sampleResolver) sampleValue [] rfl (by decide) rfl
      (sample_table_bound sampleValue [] [{ payload := [9, 9] }] rfl (by decide))
  exact ⟨bytes, hb, fun k hk => (h k hk).1⟩

theorem pickle_save_run_eq (reg : Registry) (v : IValue) :
    pickle_save_run false reg v =
      if v.supported reg = true then
        { pickle_data := ((Pickler.new appendSink [] none).protocol.pushIValue reg v).1.stop.sink,
          tensors := ((Pickler.new appendSink [] none).protocol.pushIValue reg v).1.tensor_data,
          records := (writeArchiveAndTensors (str "data")
            ((Pickler.new appendSink [] none).protocol.pushIValue reg v).1.stop.sink
            ((Pickler.new appendSink [] none).protocol.pushIValue reg v).1.stop.sink.length
            ((Pickler.new appendSink [] none).protocol.pushIValue reg v).1.tensor_data
            (PyTorchStreamWriter.new containerSink ([], []))).records,
          pushed := (writeArchiveAndTensors (str "data")
            ((Pickler.new appendSink [] none).protocol.pushIValue reg v).1.stop.sink
            ((Pickler.new appendSink [] none).protocol.pushIValue reg v).1.stop.sink.length
            ((Pickler.new appendSink [] none).protocol.pushIValue reg v).1.tensor_data
            (PyTorchStreamWriter.new containerSink ([], []))).out.2,
          result := .ok (writeArchiveAndTensors (str "data")
            ((Pickler.new appendSink [] none).protocol.pushIValue reg v).1.stop.sink
            ((Pickler.new appendSink [] none).protocol.pushIValue reg v).1.stop.sink.length
            ((Pickler.new appendSink [] none).protocol.pushIValue reg v).1.tensor_data
            (PyTorchStreamWriter.new containerSink ([], []))).out.1 }
      else
        { pickle_data := ((Pickler.new appendSink [] none).protocol.pushIValue reg v).1.sink,
          tensors := ((Pickler.new appendSink [] none).protocol.pushIValue reg v).1.tensor_data,
          records := [], pushed := [], result := .error .typeUnsupported } := by
  have hres := Pickler.pushIValue_result reg v (Pickler.new appendSink [] none).protocol
  unfold pickle_save_run
  simp only [if_true]
  show (match Pickler.pushIValue reg (Pickler.new appendSink [] none).protocol v with
    | (pickler, Except.ok _) => _
    | (pickler, Except.error e) => _) = _
  cases hq : Pickler.pushIValue reg (Pickler.new appendSink [] none).protocol v with
  | mk p1 r =>
    rw [hq] at hres
    simp only at hres
    by_cases hs : v.supported reg = true
    · simp only [hs, if_true] at hres ⊢
      subst hres
      rfl
    · simp only [hs, if_false] at hres ⊢
      subst hres
      rfl

/-- C8 (amended): when `pushIValue` fails with `e` while encoding `V`, `pickle`
(both overloads) and `pickle_save` fail with `e` and return no bytes; the sink
is left as `protocol()` and the interrupted `pushIValue` have left it, so no
terminator follows; `pickle_save` hands no entry to the archive writer and the
archive writer pushes nothing; the caller's tensor table, when one is
supplied, is left as the interrupted `pushIValue` has left it. -/
theorem pickle_failure {σ : Type} (reg : Registry) (writer : σ → List Byte → σ) (sink : σ)
    (V : IValue) (table : Option (List Tensor)) (e : Err)
    (hfail : ((Pickler.new writer sink table).protocol.pushIValue reg V).2 = .error e) :
    (pickle_writer reg writer sink V table).result = .error e ∧
    (pickle_writer reg writer sink V table).sink =
      ((Pickler.new writer sink table).protocol.pushIValue reg V).1.sink ∧
    (pickle_writer reg writer sink V table).sink =
      ((Pickler.new logSink [] table).protocol.pushIValue reg V).1.sink.foldl writer sink ∧
    (pickle_writer reg writer sink V table).tensor_table =
      ((Pickler.new writer sink table).protocol.pushIValue reg V).1.tensor_table ∧
    (pickle reg V table).result = .error e ∧
    (pickle reg V table).tensor_table =
      ((Pickler.new writer sink table).protocol.pushIValue reg V).1.tensor_table ∧
    pickle_save false reg V = .error e ∧
    (pickle_save_run false reg V).records = [] ∧
    (pickle_save_run false reg V).pushed = [] := by
  have hres := Pickler.pushIValue_result reg V (Pickler.new writer sink table).protocol
  rw [hfail] at hres
  have hs : ¬ (V.supported reg = true) := by
    intro h
    simp [h] at hres
  have he : e = .typeUnsupported := by
    simp only [hs, if_false] at hres
    cases hres
    rfl
  subst he
  have hm := Pickler.pushIValue_mirrors reg sink V (Pickler.new writer sink table).protocol
    (Pickler.new logSink [] table).protocol ⟨rfl, rfl, rfl, rfl⟩
  have hm2 := Pickler.pushIValue_mirrors reg ([] : List Byte) V
    (Pickler.new appendSink [] table).protocol
    (Pickler.new logSink [] table).protocol ⟨rfl, rfl, rfl, rfl⟩
  obtain ⟨⟨_, h2, h3, _⟩, h5⟩ := hm
  obtain ⟨⟨_, _, k3, _⟩, _⟩ := hm2
  have hsf : V.supported reg = false := by simpa using hs
  rw [pickle_writer_eq, pickle_eq, pickle_save, pickle_save_run_eq]
  simp only [hsf, Bool.false_eq_true, if_false]
  refine ⟨trivial, trivial, ?_, trivial, trivial, ?_, trivial, trivial, trivial⟩
  · rw [h2, h5]
    rfl
  · rw [k3, h3]

theorem pickle_failure_witness :
    ((Pickler.new logSink [] (some [])).protocol.pushIValue sampleRegistry
      sampleUnsupported).2 = .error .typeUnsupported ∧
    (pickle sampleRegistry sampleUnsupported (some [])).result = .error .typeUnsupported ∧
    pickle_save false sampleRegistry sampleUnsupported = .error .typeUnsupported :=
  ⟨rfl, (pickle_failure sampleRegistry logSink [] sampleUnsupported (some [])
      .typeUnsupported rfl).2.2.2.2.1,
    (pickle_failure sampleRegistry logSink [] sampleUnsupported (some [])
      .typeUnsupported rfl).2.2.2.2.2.2.1⟩

/-- C8 (as stated, refuted): `pickle` on a sequence of a tensor and an object without
strategy, with an empty tensor table: the call fails with TypeUnsupported and
the caller's table holds the tensor, a side effect that is no chunk of the sink. -/
theorem pickle_failure_changes_table :
    (pickle sampleRegistry sampleUnsupported (some [])).result = .error .typeUnsupported ∧
    (pickle sampleRegistry sampleUnsupported (some [])).tensor_table =
      some [{ payload := [1] }] ∧
    (pickle sampleRegistry sampleUnsupported (some [])).tensor_table ≠ some [] := by
  refine ⟨rfl, rfl, ?_⟩
  have h : (pickle sampleRegistry sampleUnsupported (some [])).tensor_table =
      some [{ payload := [1] }] := rfl
  rw [h]
  decide

/-- C9: for every sequence of requested lengths, what the byte source of
`unpickle(data, size, ...)` delivers, concatenated, is a prefix of
`data[0 .. size)`; the counter never exceeds `size`, so every call copies from
inside `[0, size)`; when the lengths sum to `size` or more, everything is
delivered; so the vector that `pickle` returns is read back whole, whatever
the chunking. -/
theorem memReads_invariant (data : List Byte) (size : Nat) (lens : List Nat) :
    delivered (memReads data size 0 lens) <+: data.take size ∧
    delivered (memReads data size 0 lens) = data.take (memReadsEnd data size 0 lens) ∧
    (∀ r ∈ memReads data size 0 lens, r.next ≤ size) ∧
    memReadsEnd data size 0 lens ≤ size ∧
    memReadsEnd data size 0 lens = min size lens.sum ∧
    (size ≤ lens.sum → delivered (memReads data size 0 lens) = data.take size) ∧
    (∀ (reg : Registry) (V : IValue) (table : Option (List Tensor)) (bytes : List Byte),
      (pickle reg V table).result = .ok bytes → data = bytes → size = bytes.length →
      size ≤ lens.sum → delivered (memReads data size 0 lens) = bytes) := by
  have hd := delivered_memReads data size lens 0 (by omega)
  simp only [List.take_zero, List.nil_append] at hd
  have hle := memReadsEnd_le data size lens 0 (by omega)
  have heq := memReadsEnd_eq data size lens 0 (by omega)
  simp only [Nat.zero_add] at heq
  refine ⟨?_, hd, memReads_bounds data size lens 0 (by omega), hle, heq, ?_, ?_⟩
  · rw [hd]
    have e : data.take (memReadsEnd data size 0 lens) =
        (data.take size).take (memReadsEnd data size 0 lens) := by
      rw [List.take_take, Nat.min_eq_left hle]
    rw [e]
    exact List.take_prefix _ _
  · intro h
    rw [hd, heq, Nat.min_eq_left h]
  · intro reg V table bytes _ hdata hsize h
    rw [hd, heq, Nat.min_eq_left h, hdata, hsize, List.take_length]

/-! ## The container: writer -/

theorem framesOf_append (es fs : List (List Byte × List Byte)) :
    framesOf (es ++ fs) = framesOf es ++ framesOf fs := by
  simp [framesOf]

mutual
theorem IValue.objectFree_resolved (cr : Option ClassResolver) :
    ∀ v : IValue, v.objectFree = true → v.resolved cr = true
  | .none, _ => rfl
  | .bool _, _ => rfl
  | .int _, _ => rfl
  | .double _, _ => rfl
  | .string _, _ => rfl
  | .tensor _, _ => rfl
  | .list xs, h => by
    simp only [IValue.objectFree] at h
    simp only [IValue.resolved]
    exact objectFreeAll_resolved cr xs h
  | .dict kvs, h => by
    simp only [IValue.objectFree] at h
    simp only [IValue.resolved]
    exact objectFreeItems_resolved cr kvs h
  | .object _ _, h => by simp [IValue.objectFree] at h
theorem objectFreeAll_resolved (cr : Option ClassResolver) :
    ∀ xs : List IValue, objectFreeAll xs = true → resolvedAll cr xs = true
  | [], _ => rfl
  | x :: xs, h => by
    simp only [objectFreeAll, Bool.and_eq_true] at h
    simp only [resolvedAll, Bool.and_eq_true]
    exact ⟨IValue.objectFree_resolved cr x h.1, objectFreeAll_resolved cr xs h.2⟩
theorem objectFreeItems_resolved (cr : Option ClassResolver) :
    ∀ kvs : List (IValue × IValue), objectFreeItems kvs = true → resolvedItems cr kvs = true
  | [], _ => rfl
  | (k, v) :: kvs, h => by
    simp only [objectFreeItems, Bool.and_eq_true] at h
    simp only [resolvedItems, Bool.and_eq_true]
    exact ⟨⟨IValue.objectFree_resolved cr k h.1.1, IValue.objectFree_resolved cr v h.1.2⟩,
      objectFreeItems_resolved cr kvs h.2⟩
end

mutual
theorem IValue.objectFree_supported (reg : Registry) :
    ∀ v : IValue, v.objectFree = true → v.supported reg = true
  | .none, _ => rfl
  | .bool _, _ => rfl
  | .int _, _ => rfl
  | .double _, _ => rfl
  | .string _, _ => rfl
  | .tensor _, _ => rfl
  | .list xs, h => by
    simp only [IValue.objectFree] at h
    simp only [IValue.supported]
    exact objectFreeAll_supported reg xs h
  | .dict kvs, h => by
    simp only [IValue.objectFree] at h
    simp only [IValue.supported]
    exact objectFreeItems_supported reg kvs h
  | .object _ _, h => by simp [IValue.objectFree] at h
theorem objectFreeAll_supported (reg : Registry) :
    ∀ xs : List IValue, objectFreeAll xs = true → supportedAll reg xs = true
  | [], _ => rfl
  | x :: xs, h => by
    simp only [objectFreeAll, Bool.and_eq_true] at h
    simp only [supportedAll, Bool.and_eq_true]
    exact ⟨IValue.objectFree_supported reg x h.1, objectFreeAll_supported reg xs h.2⟩
theorem objectFreeItems_supported (reg : Registry) :
    ∀ kvs : List (IValue × IValue), objectFreeItems kvs = true → supportedItems reg kvs = true
  | [], _ => rfl
  | (k, v) :: kvs, h => by
    simp only [objectFreeItems, Bool.and_eq_true] at h
    simp only [supportedItems, Bool.and_eq_true]
    exact ⟨⟨IValue.objectFree_supported reg k h.1.1, IValue.objectFree_supported reg v h.1.2⟩,
      objectFreeItems_supported reg kvs h.2⟩
end

/-! ## Container mode: `pickle_save` and `pickle_load` -/

/-- C4: on a build with `C10_MOBILE`, `pickle_save` fails with the explicit
not-supported error for every value and `pickle_load` for every byte vector and
every fuel; `pickle_save` has constructed no pickler and no archive writer, so
no byte was written. -/
theorem mobile_fails_fast (reg : Registry) (V : IValue) (data : List Byte) (fuel : Nat) :
    pickle_save true reg V = .error (.atError saveUnsupported) ∧
    (pickle_save_run true reg V).pickle_data = [] ∧
    (pickle_save_run true reg V).tensors = [] ∧
    (pickle_save_run true reg V).records = [] ∧
    (pickle_save_run true reg V).pushed = [] ∧
    pickle_load true fuel data = some (.error (.atError loadUnsupported)) :=
  ⟨rfl, rfl, rfl, rfl, rfl, rfl⟩

end Pickle
